import Mathlib

/-!
Verification development for the connected-components core of
pymatgen.analysis.chemenv.connectivity.connected_components.

The Python source is shallowly embedded: the periodic multigraph becomes an
explicit list-based multigraph, numpy integer 3-vectors become triples of
integers, and every fallible code path (a Python raise) becomes an
Except result.  Functions keep the source's names where Lean allows it.
-/

namespace ConnComp

/-- Decidable equality of Except results, so that concrete runs of the
embedded fallible functions can be checked by decide. -/
instance {ε α : Type} [DecidableEq ε] [DecidableEq α] :
    DecidableEq (Except ε α) := fun x y =>
  match x, y with
  | .ok a, .ok b =>
    if h : a = b then .isTrue (by rw [h])
    else .isFalse (fun hh => by cases hh; exact h rfl)
  | .ok _, .error _ => .isFalse (fun hh => by cases hh)
  | .error _, .ok _ => .isFalse (fun hh => by cases hh)
  | .error e, .error f =>
    if h : e = f then .isTrue (by rw [h])
    else .isFalse (fun hh => by cases hh; exact h rfl)

/-- Integer 3-vector: the lattice translation carried by an edge
(numpy integer arrays / tuples in the source). -/
abbrev V3 := Int × Int × Int

def vzero : V3 := (0, 0, 0)

def vadd (a b : V3) : V3 := (a.1 + b.1, a.2.1 + b.2.1, a.2.2 + b.2.2)

def vneg (a : V3) : V3 := (-a.1, -a.2.1, -a.2.2)

/-- Cross product of two integer 3-vectors. -/
def vcross (a b : V3) : V3 :=
  (a.2.1 * b.2.2 - a.2.2 * b.2.1,
   a.2.2 * b.1 - a.1 * b.2.2,
   a.1 * b.2.1 - a.2.1 * b.1)

/-- Dot product of two integer 3-vectors. -/
def vdot (a b : V3) : Int := a.1 * b.1 + a.2.1 * b.2.1 + a.2.2 * b.2.2

/-- Determinant of the 3x3 matrix with rows a, b, c. -/
def det3 (a b c : V3) : Int := vdot a (vcross b c)

/-- Whether vector v is linearly independent (over the rationals) from the
already independent collection acc (of size at most 3). -/
def indepStep (acc : List V3) (v : V3) : Bool :=
  match acc with
  | [] => v ≠ vzero
  | [a] => vcross a v ≠ vzero
  | [a, b] => det3 a b v ≠ 0
  | _ => false

/-- Modelled from the spec: the Integer-Vector Reduction component
(function get_linearly_independent_vectors of
pymatgen.analysis.chemenv.utils.math_utils, whose source is not part of this
bundle).  Given a collection of integer 3-vectors it returns a maximal
linearly independent subset of size at most 3, discarding zero vectors and
duplicates, deterministically (first independent representatives are kept,
in input order). -/
def get_linearly_independent_vectors (vectors : List V3) : List V3 :=
  vectors.foldl (fun acc v => if indepStep acc v then acc ++ [v] else acc) []

/-- A graph node: one coordination-environment instance.  nid distinguishes
node objects (Python object identity); isite is the stable site index. -/
structure Node where
  nid : Nat
  isite : Int
deriving DecidableEq, Repr

/-- Attribute dict of one edge: conceptual source site, target site and the
integer translation vector delta. -/
structure EdgeData where
  start : Int
  end_ : Int
  delta : V3
deriving DecidableEq, Repr

/-- One keyed multi-edge between two stored endpoints. -/
structure MEdge (α : Type) where
  n1 : α
  n2 : α
  key : Nat
  data : EdgeData
deriving DecidableEq, Repr

/-- A multigraph in the style of networkx.MultiGraph: a node list (insertion
order, no duplicates when built through addEdge/insertNew) and an edge list
in insertion order. -/
structure MGraph (α : Type) where
  nodes : List α
  edges : List (MEdge α)
deriving DecidableEq, Repr

def emptyGraph {α : Type} : MGraph α := { nodes := [], edges := [] }

/-- Append an element to a list if it is not already present
(networkx node insertion). -/
def insertNew {α : Type} [DecidableEq α] (l : List α) (x : α) : List α :=
  if x ∈ l then l else l ++ [x]

/-- Whether an edge occupies the slot given by the unordered endpoint pair
u,v and the key (networkx MultiGraph edge identity). -/
def sameSlot {α : Type} [DecidableEq α] (e : MEdge α) (u v : α) (k : Nat) : Bool :=
  e.key = k ∧ ((e.n1 = u ∧ e.n2 = v) ∨ (e.n1 = v ∧ e.n2 = u))

/-- networkx MultiGraph.add_edge with an explicit key: endpoints are added as
nodes when missing; an edge with the same unordered endpoints and the same
key has its data overwritten, otherwise a new parallel edge is appended. -/
def addEdge {α : Type} [DecidableEq α] (g : MGraph α) (u v : α) (k : Nat)
    (d : EdgeData) : MGraph α :=
  { nodes := insertNew (insertNew g.nodes u) v,
    edges :=
      if g.edges.any (fun e => sameSlot e u v k) then
        g.edges.map (fun e => if sameSlot e u v k then { e with data := d } else e)
      else
        g.edges ++ [⟨u, v, k, d⟩] }

/-- All edges joining u and v (in either stored orientation), in edge
insertion order: the keyed adjacency dict graph[u][v] of networkx. -/
def edgesBetween {α : Type} [DecidableEq α] (g : MGraph α) (u v : α) :
    List (MEdge α) :=
  g.edges.filter (fun e => (e.n1 = u ∧ e.n2 = v) ∨ (e.n1 = v ∧ e.n2 = u))

/-- Deduplicated neighbor list of a node (a node with a self-loop is its own
neighbor), in first-occurrence edge order: networkx adjacency iteration. -/
def neighbors {α : Type} [DecidableEq α] (g : MGraph α) (u : α) : List α :=
  (g.edges.foldl
    (fun acc e =>
      if e.n1 = u then insertNew acc e.n2
      else if e.n2 = u then insertNew acc e.n1
      else acc) [])

/-- The source's get_delta: the delta of edge_data oriented from node1 to
node2; a data-consistency fault (ValueError) when neither endpoint order
matches the recorded start/end sites. -/
def get_delta (node1 node2 : Node) (edge_data : EdgeData) : Except String V3 :=
  if node1.isite = edge_data.start ∧ node2.isite = edge_data.end_ then
    .ok edge_data.delta
  else if node2.isite = edge_data.start ∧ node1.isite = edge_data.end_ then
    .ok (vneg edge_data.delta)
  else
    .error "Trying to find a delta between two nodes with an edge that seem not to link these nodes"

/-- Total variant used inside the periodicity algorithms, which only query
edges taken from the adjacency of the very node pair, so the error branch of
get_delta is unreachable there on well-formed graphs; the default value is
never produced by any theorem below. -/
def getDeltaAlg (node1 node2 : Node) (edge_data : EdgeData) : V3 :=
  match get_delta node1 node2 edge_data with
  | .ok d => d
  | .error _ => vzero

/-!
networkx all_simple_paths from a node back to itself, on the simple-graph
view nx.Graph(multigraph).  With source = target the generator yields every
walk source, v1, ..., vk, source whose interior nodes v1..vk are distinct
and different from the source, each consecutive pair being adjacent; an
interior section of length up to cutoff - 1 is allowed (the source passes
cutoff = number of nodes, one more than the networkx default, precisely so
that these closed walks remain reachable).  The fuel argument enforces the
cutoff: extension is allowed while fuel at least 2 remains, matching
len(visited) < cutoff in networkx.
-/

def spAux {α : Type} [DecidableEq α] (adj : α → List α) (target : α) :
    Nat → List α → α → List (List α)
  | 0, _, _ => []
  | fuel + 1, visited, last =>
    (adj last).flatMap (fun child =>
      if child = target then [visited ++ [target]]
      else if child ∈ visited then []
      else spAux adj target fuel (visited ++ [child]) child)

/-- nx.all_simple_paths(simple graph, t, t, cutoff = node count). -/
def all_simple_paths {α : Type} [DecidableEq α] (g : MGraph α) (t : α) :
    List (List α) :=
  spAux (neighbors g) t g.nodes.length [t] t

/-- Cumulative deltas along one path: starting from the single zero vector,
each hop multiplies the candidate list over all parallel edges joining the
two consecutive nodes (cross-product branching of the source). -/
def pathDeltas (g : MGraph Node) (path : List Node) : List V3 :=
  match path with
  | [] => [vzero]
  | n0 :: rest =>
    (rest.foldl
      (fun (st : Node × List V3) n2 =>
        let (n1, cur) := st
        (n2, (edgesBetween g n1 n2).flatMap
          (fun e => cur.map (fun c => vadd c (getDeltaAlg n1 n2 e.data)))))
      (n0, [vzero])).2

/-- Inner loop of compute_periodicity_all_simple_paths_algorithm over the
raw path list: paths are deduplicated by their isite sequences, each kept
path's cumulative deltas extend the node's candidate vectors which are then
reduced; the loop breaks as soon as 3 independent vectors are held. -/
def aspGo (g : MGraph Node) :
    List (List Node) → List (List Int) → List V3 → List V3
  | [], _, cur => cur
  | p :: rest, seen, cur =>
    let ids := p.map Node.isite
    if ids ∈ seen then aspGo g rest seen cur
    else
      let cur' := get_linearly_independent_vectors (cur ++ pathDeltas g p)
      if cur'.length = 3 then cur'
      else aspGo g rest (seen ++ [ids]) cur'

/-- Per-node body of Algorithm A: seed with the node's self-loop deltas,
then fold the deduplicated closed simple paths through the node. -/
def nodeCellImgVectors (g : MGraph Node) (t : Node) : List V3 :=
  let seeds :=
    if (edgesBetween g t t).isEmpty then []
    else (edgesBetween g t t).map (fun e => e.data.delta)
  aspGo g (all_simple_paths g t) [] seeds

/-- The per-node independent vector sets accumulated by Algorithm A, in node
order, stopping right after the first node that yields 3 independent
vectors (the early exit of the source). -/
def aspCollect (g : MGraph Node) : List Node → List (List V3)
  | [] => []
  | t :: ts =>
    let s := nodeCellImgVectors g t
    if s.length = 3 then [s] else s :: aspCollect g ts

def aspTested (g : MGraph Node) : List (List V3) := aspCollect g g.nodes

/-- Final selection loop of Algorithm A: keep the first set with a strictly
larger independent count, stopping once a count of 3 is held. -/
def aspSelect : List (List V3) → List V3 → List V3
  | [], best => best
  | s :: rest, best =>
    let best' := if best.length < s.length then s else best
    if best'.length = 3 then best' else aspSelect rest best'

/-- ConnectedComponent.compute_periodicity_all_simple_paths_algorithm,
returning the final periodicity-vector list. -/
def compute_periodicity_all_simple_paths_algorithm (g : MGraph Node) :
    List V3 :=
  aspSelect (aspTested g) []

/-!
networkx cycle_basis (Paton's algorithm), embedded with association lists in
place of Python dicts and sets; iteration follows list insertion order (the
Python sets leave traversal order unspecified, and no claim below depends on
which representative basis is produced).  Each loop carries fuel one larger
than the node count, which the algorithm never exhausts: every stack push
and every predecessor-chain step consumes a distinct node.
-/

def assocGet {α β : Type} [DecidableEq α] (m : List (α × β)) (k : α) :
    Option β :=
  (m.find? (fun p => p.1 = k)).map (fun p => p.2)

def assocSet {α β : Type} [DecidableEq α] (m : List (α × β)) (k : α) (v : β) :
    List (α × β) :=
  if m.any (fun p => p.1 = k) then
    m.map (fun p => if p.1 = k then (k, v) else p)
  else m ++ [(k, v)]

/-- The predecessor walk of Paton's algorithm: follow pred from p, collecting
nodes, until a node already used by the colliding neighbor is met. -/
def patonPath {α : Type} [DecidableEq α] (pred : List (α × α)) (pn : List α) :
    Nat → α → List α → List α
  | 0, p, cyc => cyc ++ [p]
  | fuel + 1, p, cyc =>
    if p ∈ pn then cyc ++ [p]
    else patonPath pred pn fuel ((assocGet pred p).getD p) (cyc ++ [p])

/-- One DFS sweep of Paton's algorithm from a root (the inner while-stack
loop): state is (stack, pred, used, cycles). -/
def patonStack {α : Type} [DecidableEq α] (adj : α → List α) (pfuel : Nat) :
    Nat → List α → List (α × α) → List (α × List α) → List (List α) →
    List (α × α) × List (List α)
  | 0, _, pred, _, cycles => (pred, cycles)
  | fuel + 1, stack, pred, used, cycles =>
    match stack with
    | [] => (pred, cycles)
    | z :: rest =>
      let st := (adj z).foldl
        (fun (acc : List α × List (α × α) × List (α × List α) × List (List α))
            nbr =>
          let (stk, pred, used, cycles) := acc
          match assocGet used nbr with
          | none => (nbr :: stk, assocSet pred nbr z, assocSet used nbr [z],
                     cycles)
          | some nbrUsed =>
            if nbr = z then (stk, pred, used, cycles ++ [[z]])
            else if nbr ∈ (assocGet used z).getD [] then
              (stk, pred, used, cycles)
            else
              let cyc := patonPath pred nbrUsed pfuel
                ((assocGet pred z).getD z) [nbr, z]
              (stk, pred, assocSet used nbr (nbrUsed ++ [z]), cycles ++ [cyc]))
        (rest, pred, used, cycles)
      patonStack adj pfuel fuel st.1 st.2.1 st.2.2.1 st.2.2.2

/-- The outer loop of Paton's algorithm over remaining components. -/
def patonOuter {α : Type} [DecidableEq α] (adj : α → List α) (pfuel : Nat) :
    Nat → List α → List (List α) → List (List α)
  | 0, _, cycles => cycles
  | fuel + 1, gnodes, cycles =>
    match gnodes with
    | [] => cycles
    | root :: _ =>
      let (pred, cycles') :=
        patonStack adj pfuel pfuel [root] [(root, root)] [(root, [])] cycles
      patonOuter adj pfuel fuel
        (gnodes.filter (fun x => (assocGet pred x).isNone)) cycles'

/-- nx.cycle_basis of the simple-graph view of the multigraph. -/
def cycle_basis {α : Type} [DecidableEq α] (g : MGraph α) : List (List α) :=
  patonOuter (neighbors g) (g.nodes.length + 1) (g.nodes.length + 1)
    g.nodes []

/-- Deduplicated unordered node pairs, in first-occurrence edge order: the
edge list of the simple-graph view (self-loop pairs included). -/
def simpleEdges {α : Type} [DecidableEq α] (g : MGraph α) : List (α × α) :=
  g.edges.foldl
    (fun acc e =>
      if acc.any (fun p => (p.1 = e.n1 ∧ p.2 = e.n2) ∨
                           (p.1 = e.n2 ∧ p.2 = e.n1)) then acc
      else acc ++ [(e.n1, e.n2)]) []

/-- itertools.combinations(l, 2) in list order. -/
def pairCombinations {β : Type} : List β → List (β × β)
  | [] => []
  | x :: xs => xs.map (fun y => (x, y)) ++ pairCombinations xs

/-- First pass of Algorithm B: accumulate and reduce the cumulative deltas of
every basis cycle, with early return (Bool flag) at 3 independent vectors.
An empty basis cycle would make the source index cyc[0] out of range. -/
def cbCycles (g : MGraph Node) :
    List (List Node) → List V3 → Except String (Bool × List V3)
  | [], acc => .ok (false, acc)
  | cyc :: rest, acc =>
    match cyc with
    | [] => .error "IndexError: list index out of range"
    | c0 :: _ =>
      let acc' := get_linearly_independent_vectors
        (acc ++ pathDeltas g (cyc ++ [c0]))
      if acc'.length = 3 then .ok (true, acc') else cbCycles g rest acc'

/-- Second pass of Algorithm B: for every simple-graph node pair joined by
parallel edges, add the delta differences of all edge pairs; a pair present
in the simple view but without multigraph edges is the source's
"Should not be here" fault. -/
def cbPairs (g : MGraph Node) :
    List (Node × Node) → List V3 → Except String (Bool × List V3)
  | [], acc => .ok (false, acc)
  | (n1, n2) :: rest, acc =>
    if n1 = n2 then cbPairs g rest acc
    else
      let es := edgesBetween g n1 n2
      if es.length = 1 then cbPairs g rest acc
      else if 1 < es.length then
        let acc' := get_linearly_independent_vectors
          (acc ++ (pairCombinations es).map (fun pr =>
            vadd (getDeltaAlg n1 n2 pr.1.data) (getDeltaAlg n2 n1 pr.2.data)))
        if acc'.length = 3 then .ok (true, acc') else cbPairs g rest acc'
      else .error "Should not be here ..."

/-- ConnectedComponent.compute_periodicity_cycle_basis: basis cycles first,
then the parallel-edge patch; early return at 3 independent vectors. -/
def compute_periodicity_cycle_basis (g : MGraph Node) :
    Except String (List V3) := do
  let (done, acc) ← cbCycles g (cycle_basis g) []
  if done then pure acc
  else
    let (_, acc') ← cbPairs g (simpleEdges g) acc
    pure acc'

/-!
make_supergraph: lay mult copies of the base graph end to end along the
first periodicity vector.  Edges whose delta equals the vector (or its
negation, after flipping start/end and negating delta) are "connecting"
edges rewired into the next copy; all remaining edges are replicated inside
each copy.  (For a non-zero delta that matches neither direction the source
merely pauses on an interactive input() prompt and then files the edge with
the others, which is what the embedding does directly.)
-/

/-- Python multiplicity argument: an int or a sequence. -/
inductive Mult where
  | int (n : Int)
  | seq (l : List Int)

/-- Reversal of an edge's attribute dict as built for delta = -p connecting
edges: swapped start/end, negated delta. -/
def flipData (d : EdgeData) : EdgeData :=
  { start := d.end_, end_ := d.start, delta := vneg d.delta }

/-- Single classification pass over the edge list: (connecting, other),
both in input order, connecting edges for delta = -p already flipped. -/
def splitEdges (p : V3) : List (MEdge Node) → List (MEdge Node) × List (MEdge Node)
  | [] => ([], [])
  | e :: rest =>
    let (cs, os) := splitEdges p rest
    if e.data.delta = p then (e :: cs, os)
    else if e.data.delta = vneg p then
      ({ e with data := flipData e.data } :: cs, os)
    else (cs, e :: os)

/-- Position of a node in the graph's node list (indices_nodes). -/
def nodeIndex (g : MGraph Node) (n : Node) : Int :=
  ((g.nodes.indexOf n : Nat) : Int)

/-- An "other" edge replicated inside copy i. -/
def otherInst (N : Int) (idx : Node → Int) (i : Int) (e : MEdge Node) :
    MEdge Int :=
  let u := i * N + idx e.n1
  let v := i * N + idx e.n2
  ⟨u, v, e.key, { start := u, end_ := v, delta := e.data.delta }⟩

/-- A connecting edge of a non-final copy i, rewired into copy i+1 with its
delta absorbed (np.mod with modulus N*mult as in the source). -/
def connInstMid (N m : Int) (idx : Node → Int) (i : Int) (e : MEdge Node) :
    MEdge Int :=
  let u := i * N + idx e.n1
  let v := ((i + 1) * N + idx e.n2).emod (N * m)
  ⟨u, v, e.key, { start := u, end_ := v, delta := vzero }⟩

/-- A connecting edge of the final copy, wrapped back to copy 0; the source
leaves this edge's delta untouched. -/
def connInstFinal (N : Int) (idx : Node → Int) (i : Int) (e : MEdge Node) :
    MEdge Int :=
  let u := i * N + idx e.n1
  let v := idx e.n2
  ⟨u, v, e.key, { start := u, end_ := v, delta := e.data.delta }⟩

/-- The supergraph edges in the order the source adds them: copies
0..mult-2 (others then connectings per copy), then the final copy. -/
def supergraphEdgeList (g : MGraph Node) (m : Int) (p : V3) :
    List (MEdge Int) :=
  let N : Int := (g.nodes.length : Nat)
  let idx := nodeIndex g
  let (cs, os) := splitEdges p g.edges
  ((List.range (m - 1).toNat).flatMap (fun iN =>
      os.map (otherInst N idx (iN : Nat)) ++
      cs.map (connInstMid N m idx (iN : Nat)))) ++
  os.map (otherInst N idx (m - 1)) ++ cs.map (connInstFinal N idx (m - 1))

/-- Fold the generated edges into a fresh nx.MultiGraph via add_edge. -/
def buildFromEdges (l : List (MEdge Int)) : MGraph Int :=
  l.foldl (fun sg e => addEdge sg e.n1 e.n2 e.key e.data) emptyGraph

/-- Module-level make_supergraph(graph, multiplicity, periodicity_vectors).
Only an int or a single-element sequence multiplicity is supported; anything
else raises NotImplementedError.  periodicity_vectors[0] is only evaluated
inside the edge loop, hence no IndexError when the graph has no edges. -/
def make_supergraph (graph : MGraph Node) (multiplicity : Mult)
    (periodicity_vectors : List V3) : Except String (MGraph Int) :=
  let build := fun (m : Int) =>
    if graph.edges.isEmpty then
      Except.ok (buildFromEdges (supergraphEdgeList graph m vzero))
    else
      match periodicity_vectors.head? with
      | none => .error "IndexError: list index out of range"
      | some p => .ok (buildFromEdges (supergraphEdgeList graph m p))
  match multiplicity with
  | .int m => build m
  | .seq [m] => build m
  | .seq _ =>
    .error "make_supergraph not yet implemented for 2- and 3-periodic graphs"

/-!
Elastic centering.  networkx bfs_tree is embedded as an association list
from each node to its BFS children; the level loop of the source walks this
tree breadth first, pulling each child into its parent's cell by applying a
translation correction to every edge incident to the child.
-/

/-- BFS worker: fuel is one larger than the node count, which the loop never
exhausts since every queued node is distinct. -/
def bfsAux (g : MGraph Node) :
    Nat → List Node → List Node → List (Node × List Node) →
    List (Node × List Node)
  | 0, _, _, acc => acc
  | fuel + 1, visited, queue, acc =>
    match queue with
    | [] => acc
    | q :: qs =>
      let kids := (neighbors g q).filter (fun x => x ∉ visited)
      bfsAux g fuel (visited ++ kids) (qs ++ kids) (acc ++ [(q, kids)])

/-- networkx bfs_tree(G, source), as the children map of the BFS tree. -/
def bfs_tree (g : MGraph Node) (root : Node) : List (Node × List Node) :=
  bfsAux g (g.nodes.length + 1) [root] [root] []

def treeChildren (tree : List (Node × List Node)) (n : Node) : List Node :=
  (assocGet tree n).getD []

/-- Collect already_inside and the oriented ddeltas list over the edges
joining a node and its tree-neighbor, in edge order, mirroring the first
inner loop of elastic_centered_graph; an edge matching neither orientation
is the source's "Should not be here" fault. -/
def ddeltasAux (node : Node) :
    List (MEdge Node) → Bool → List V3 → Except String (Bool × List V3)
  | [], ai, dds => .ok (ai, dds)
  | e :: rest, ai, dds =>
    if e.data.delta = vzero then ddeltasAux node rest true (dds ++ [vzero])
    else if e.data.start = node.isite ∧ e.data.end_ ≠ node.isite then
      ddeltasAux node rest ai (dds ++ [e.data.delta])
    else if e.data.end_ = node.isite then
      ddeltasAux node rest ai (dds ++ [vneg e.data.delta])
    else .error "Should not be here ..."

/-- ddeltas and already_inside for one (node, tree-neighbor) pair.  The
source snapshots the edges incident to the node before its neighbor loop,
but reads their live attribute dicts; since corrections to one pulled
neighbor never touch the edges joining the node to another neighbor,
reading the current graph here is equivalent. -/
def ddeltasOf (g : MGraph Node) (node node_neighbor : Node) :
    Except String (Bool × List V3) :=
  ddeltasAux node (edgesBetween g node node_neighbor) false []

/-- Correction of one edge during the pull of node_neighbor: add the
correction when the neighbor is the recorded start, subtract it when it is
the recorded end; self-loops are skipped; any other shape is the source's
"DUHH" fault. -/
def correctEdge (node_neighbor : Node) (d : V3) (e : MEdge Node) :
    Except String (MEdge Node) :=
  if (e.n1 = node_neighbor ∧ e.n2 ≠ node_neighbor) ∨
     (e.n2 = node_neighbor ∧ e.n1 ≠ node_neighbor) then
    if e.data.start = node_neighbor.isite ∧
       e.data.end_ ≠ node_neighbor.isite then
      .ok { e with data := { e.data with delta := vadd e.data.delta d } }
    else if e.data.end_ = node_neighbor.isite then
      .ok { e with data := { e.data with delta := vadd e.data.delta (vneg d) } }
    else .error "DUHH"
  else .ok e

def applyCorrections (g : MGraph Node) (node_neighbor : Node) (d : V3) :
    Except String (MGraph Node) := do
  let edges' ← g.edges.mapM (correctEdge node_neighbor d)
  pure { g with edges := edges' }

/-- Processing of one tree-neighbor of a dequeued node: fatal when more than
one zero delta is present; skip when a zero-delta edge already places the
neighbor; otherwise pull the neighbor by the first listed delta. -/
def processNeighbor (g : MGraph Node) (node node_neighbor : Node) :
    Except String (MGraph Node) := do
  let (already_inside, ddeltas) ← ddeltasOf g node node_neighbor
  if 1 < ddeltas.count vzero then
    throw "Should not have more than one 000 delta ..."
  else if already_inside then pure g
  else
    let ddeltas := ddeltas.erase vzero
    match ddeltas.head? with
    | none => throw "IndexError: list index out of range"
    | some myddelta => applyCorrections g node_neighbor myddelta

def processNeighbors (g : MGraph Node) (node : Node) :
    List Node → Except String (MGraph Node)
  | [] => .ok g
  | nb :: rest => do
    let g' ← processNeighbor g node nb
    processNeighbors g' node rest

def processNodes (tree : List (Node × List Node)) (g : MGraph Node) :
    List Node → Except String (MGraph Node)
  | [] => .ok g
  | n :: rest => do
    let g' ← processNeighbors g n (treeChildren tree n)
    processNodes tree g' rest

/-- Level loop of elastic_centered_graph; fuel is one larger than the node
count, never exhausted since tree levels are disjoint and nonempty. -/
def levelLoop (tree : List (Node × List Node)) :
    Nat → MGraph Node → List Node → Except String (MGraph Node)
  | 0, _, _ => .error "maximum recursion depth exceeded"
  | fuel + 1, g, current => do
    let g' ← processNodes tree g current
    let nxt := current.flatMap (treeChildren tree)
    if nxt.isEmpty then pure g' else levelLoop tree fuel g' nxt

/-- BFS reachability worker for is_connected. -/
def reachAux {α : Type} [DecidableEq α] (g : MGraph α) :
    Nat → List α → List α → List α
  | 0, visited, _ => visited
  | fuel + 1, visited, queue =>
    match queue with
    | [] => visited
    | q :: qs =>
      let ns := (neighbors g q).filter (fun x => x ∉ visited)
      reachAux g fuel (visited ++ ns) (qs ++ ns)

/-- networkx is_connected (the source never calls it on a null graph). -/
def is_connected {α : Type} [DecidableEq α] (g : MGraph α) : Bool :=
  match g.nodes.head? with
  | none => false
  | some r =>
    g.nodes.all (fun n => n ∈ reachAux g (g.nodes.length + 1) [r] [r])

/-- The check graph of elastic_centered_graph: all original nodes, but only
the edges whose final delta is exactly zero. -/
def zeroDeltaSubgraph (g : MGraph Node) : MGraph Node :=
  { nodes := g.nodes,
    edges := g.edges.filter (fun e => e.data.delta = vzero) }

def zeroConnected (g : MGraph Node) : Bool :=
  is_connected (zeroDeltaSubgraph g)

/-- ConnectedComponent: the owned multigraph plus the lazily computed cache
of periodicity vectors (field _periodicity_vectors of the source). -/
structure CState where
  graph : MGraph Node
  pv : Option (List V3)
deriving DecidableEq, Repr

set_option linter.unusedVariables false in
/-- ConnectedComponent.elastic_centered_graph.  The start_node parameter is
immediately overwritten by the first node of the graph's node order
(start_node = list(self.graph.nodes())[0]); indexing an empty node list is
an IndexError.  After the level loop the zero-delta subgraph must connect
all nodes, else the RuntimeError "Could not find a centered graph." -/
def elastic_centered_graph (cc : CState) (start_node : Option Node) :
    Except String (MGraph Node) :=
  match cc.graph.nodes.head? with
  | none => .error "IndexError: list index out of range"
  | some root => do
    let centered : MGraph Node :=
      { nodes := cc.graph.nodes, edges := cc.graph.edges }
    let tree := bfs_tree cc.graph root
    let g' ← levelLoop tree (cc.graph.nodes.length + 1) centered [root]
    if is_connected (zeroDeltaSubgraph g') then pure g'
    else throw "Could not find a centered graph."

/-- ConnectedComponent.compute_periodicity: dispatch on the algorithm name;
an unknown name is a ValueError. -/
def compute_periodicity (s : CState) (algorithm : String) :
    Except String CState :=
  if algorithm = "all_simple_paths" then
    .ok { s with pv := some (compute_periodicity_all_simple_paths_algorithm s.graph) }
  else if algorithm = "cycle_basis" then
    match compute_periodicity_cycle_basis s.graph with
    | .ok l => .ok { s with pv := some l }
    | .error e => .error e
  else
    .error ("Algorithm \"" ++ algorithm ++ "\" is not allowed to compute periodicity")

/-- The lazy-cache read shared by every derived property: when the cache is
empty, compute_periodicity() with its default algorithm (all_simple_paths)
fills it; afterwards the stored list is read back unchanged. -/
def getPVState (s : CState) : List V3 × CState :=
  match s.pv with
  | some l => (l, s)
  | none =>
    let l := compute_periodicity_all_simple_paths_algorithm s.graph
    (l, { s with pv := some l })

def is_0d (s : CState) : Bool × CState :=
  let (l, s') := getPVState s
  (l.length == 0, s')

def is_1d (s : CState) : Bool × CState :=
  let (l, s') := getPVState s
  (l.length == 1, s')

def is_2d (s : CState) : Bool × CState :=
  let (l, s') := getPVState s
  (l.length == 2, s')

def is_3d (s : CState) : Bool × CState :=
  let (l, s') := getPVState s
  (l.length == 3, s')

def is_periodic (s : CState) : Bool × CState :=
  let (b, s') := is_0d s
  (!b, s')

def periodicity_vectors (s : CState) : List V3 × CState :=
  let (l, s') := getPVState s
  (l, s')

def periodicity (s : CState) : String × CState :=
  let (l, s') := getPVState s
  (toString l.length ++ "D", s')

/-- The derived properties of ConnectedComponent that read the cache. -/
inductive Accessor where
  | is0d | is1d | is2d | is3d | isPeriodic | periodicityVectors
  | periodicityLabel
deriving DecidableEq, Repr

/-- Value returned by a property access. -/
inductive AccessValue where
  | ofBool (b : Bool)
  | ofVecs (l : List V3)
  | ofStr (t : String)
deriving DecidableEq, Repr

def accessProperty : Accessor → CState → AccessValue × CState
  | .is0d, s => let (b, s') := is_0d s; (.ofBool b, s')
  | .is1d, s => let (b, s') := is_1d s; (.ofBool b, s')
  | .is2d, s => let (b, s') := is_2d s; (.ofBool b, s')
  | .is3d, s => let (b, s') := is_3d s; (.ofBool b, s')
  | .isPeriodic, s => let (b, s') := is_periodic s; (.ofBool b, s')
  | .periodicityVectors, s =>
    let (l, s') := periodicity_vectors s; (.ofVecs l, s')
  | .periodicityLabel, s => let (t, s') := periodicity s; (.ofStr t, s')

/-- The periodicity-vector list an access observes: the cache when filled,
else the result of the default computation. -/
def getPV (s : CState) : List V3 :=
  match s.pv with
  | some l => l
  | none => compute_periodicity_all_simple_paths_algorithm s.graph

/-- The component state after any first property access. -/
def forceCache (s : CState) : CState := { s with pv := some (getPV s) }

/-- The pure value each property derives from the periodicity-vector list. -/
def valueOf : Accessor → List V3 → AccessValue
  | .is0d, l => .ofBool (l.length == 0)
  | .is1d, l => .ofBool (l.length == 1)
  | .is2d, l => .ofBool (l.length == 2)
  | .is3d, l => .ofBool (l.length == 3)
  | .isPeriodic, l => .ofBool (!(l.length == 0))
  | .periodicityVectors, l => .ofVecs l
  | .periodicityLabel, l => .ofStr (toString l.length ++ "D")

/-- ConnectedComponent.__init__.  Building from environments and links:
passing environments_data positionally into add_nodes_from is a TypeError;
iterating environments=None or links=None is a TypeError; a link endpoint
absent from the node set is a ChemenvError.  attr_dict=None gives the edge
an empty attribute dict, substituted here by a default record (no claim
evaluates that branch's data). -/
def addLinks : MGraph Node → List (Node × Node) → Option EdgeData →
    Except String (MGraph Node)
  | g, [], _ => .ok g
  | g, (a, b) :: rest, links_data =>
    if a ∉ g.nodes ∨ b ∉ g.nodes then
      .error "ChemenvError: Trying to add edge with some unexisting node ..."
    else
      addLinks (addEdge g a b (edgesBetween g a b).length
          (links_data.getD ⟨0, 0, vzero⟩)) rest links_data

def componentInit (environments : Option (List Node))
    (links : Option (List (Node × Node))) (environments_data : Option Unit)
    (links_data : Option EdgeData) (graph : Option (MGraph Node)) :
    Except String CState :=
  match graph with
  | some g => .ok { graph := g, pv := none }
  | none =>
    match environments_data, environments with
    | some _, _ =>
      .error "TypeError: add_nodes_from takes 2 positional arguments"
    | none, none => .error "TypeError: NoneType object is not iterable"
    | none, some envs =>
      let g0 : MGraph Node := { nodes := envs.foldl insertNew [], edges := [] }
      match links with
      | none => .error "TypeError: NoneType object is not iterable"
      | some ls => do
        let g ← addLinks g0 ls links_data
        pure { graph := g, pv := none }

set_option linter.unusedVariables false in
/-- ConnectedComponent.as_dict: only the class identity is recorded. -/
def as_dict (c : CState) : List (String × String) :=
  [("@module", "pymatgen.analysis.chemenv.connectivity.connected_components"),
   ("@class", "ConnectedComponent")]

set_option linter.unusedVariables false in
/-- ConnectedComponent.from_dict: returns cls(), i.e. __init__ with every
argument left at None. -/
def from_dict (d : List (String × String)) : Except String CState :=
  componentInit none none none none none

/-- ConnectedComponent.from_graph. -/
def from_graph (g : MGraph Node) : Except String CState :=
  componentInit none none none none (some g)

/-! Concrete fixture graphs used by counterexamples and witnesses. -/

def nodeA : Node := ⟨0, 0⟩

def nodeB : Node := ⟨1, 1⟩

/-- Two nodes, each with its own self-loop along a different axis, joined by
a zero-delta edge: connected, well formed, with self-loops that are legal
per the data model. -/
def gSelfLoops : MGraph Node :=
  { nodes := [nodeA, nodeB],
    edges := [⟨nodeA, nodeA, 0, ⟨0, 0, (1, 0, 0)⟩⟩,
              ⟨nodeB, nodeB, 0, ⟨1, 1, (0, 1, 0)⟩⟩,
              ⟨nodeA, nodeB, 0, ⟨0, 1, vzero⟩⟩] }

/-- Two isolated nodes (sites 5 and 6): the zero-delta subgraph cannot be
connected, so elastic centering must fail. -/
def gIsolatedPairX : MGraph Node := { nodes := [⟨0, 5⟩, ⟨1, 6⟩], edges := [] }

/-- Same shape with different sites (7 and 8), hence a different root. -/
def gIsolatedPairY : MGraph Node := { nodes := [⟨0, 7⟩, ⟨1, 8⟩], edges := [] }

/-- Two nodes joined by a single periodic edge; centering succeeds. -/
def gSingleEdge : MGraph Node :=
  { nodes := [nodeA, nodeB], edges := [⟨nodeA, nodeB, 0, ⟨0, 1, (1, 0, 0)⟩⟩] }

/-- Two nodes joined by two parallel edges with distinct non-zero deltas. -/
def gParallel : MGraph Node :=
  { nodes := [nodeA, nodeB],
    edges := [⟨nodeA, nodeB, 0, ⟨0, 1, (1, 0, 0)⟩⟩,
              ⟨nodeA, nodeB, 1, ⟨0, 1, (2, 0, 0)⟩⟩] }

/-- A 1-periodic ladder along x: one zero-delta rung and one connecting edge
whose delta is the periodicity vector (1,0,0). -/
def gLadder : MGraph Node :=
  { nodes := [nodeA, nodeB],
    edges := [⟨nodeA, nodeB, 0, ⟨0, 1, vzero⟩⟩,
              ⟨nodeA, nodeB, 1, ⟨0, 1, (1, 0, 0)⟩⟩] }

/-- A single node with three independent self-loops: Algorithm A finds 3
independent vectors at the first node tested. -/
def gTripleLoop : MGraph Node :=
  { nodes := [nodeA],
    edges := [⟨nodeA, nodeA, 0, ⟨0, 0, (1, 0, 0)⟩⟩,
              ⟨nodeA, nodeA, 1, ⟨0, 0, (0, 1, 0)⟩⟩,
              ⟨nodeA, nodeA, 2, ⟨0, 0, (0, 0, 1)⟩⟩] }

/-- Shape of the result of an elastic centering run, for witnesses: the
zero-delta connectivity of the returned graph, false on an error. -/
def zeroConnectedExcept : Except String (MGraph Node) → Bool
  | .ok g => zeroConnected g
  | .error _ => false

/-! Proof infrastructure for the supergraph counting argument (C3): the
slot of a multigraph edge (unordered endpoints plus key) determines its
identity under addEdge, and the copy index of a rewired connecting edge. -/

/-- Endpoints and key of an edge: the data addEdge keys on. -/
def stripT {α : Type} (e : MEdge α) : α × α × Nat := (e.n1, e.n2, e.key)

/-- Two (endpoint, endpoint, key) triples denote the same multigraph edge
slot: equal keys and equal unordered endpoint pairs. -/
def slotClash {α : Type} (a b : α × α × Nat) : Prop :=
  a.2.2 = b.2.2 ∧
    ((a.1 = b.1 ∧ a.2.1 = b.2.1) ∨ (a.1 = b.2.1 ∧ a.2.1 = b.1))

instance {α : Type} [DecidableEq α] (a b : α × α × Nat) :
    Decidable (slotClash a b) := by
  unfold slotClash
  infer_instance

/-- The copy a connecting edge of copy i lands in: i+1, wrapping to 0. -/
def wcopy (m i : Int) : Int := if i + 1 = m then 0 else i + 1

/-- Node-index-level slot of an input edge. -/
def idxStrip (g : MGraph Node) (e : MEdge Node) : Int × Int × Nat :=
  (nodeIndex g e.n1, nodeIndex g e.n2, e.key)

/-- The classified input slots, others tagged false, connectings true. -/
def taggedSlots (g : MGraph Node) (p : V3) :
    List (Bool × (Int × Int × Nat)) :=
  (splitEdges p g.edges).2.map (fun e => (false, idxStrip g e)) ++
  (splitEdges p g.edges).1.map (fun e => (true, idxStrip g e))

/-- The slot an input slot z is instantiated at in copy i: the second
endpoint of a connecting edge (tag true) lands in the wrapped next copy. -/
def instTuple (N m : Int) (i : Int) (t : Bool) (z : Int × Int × Nat) :
    Int × Int × Nat :=
  (i * N + z.1, (if t then wcopy m i else i) * N + z.2.1, z.2.2)

/-- All supergraph slots of one copy, in the source's per-copy edge order. -/
def stripCopy (g : MGraph Node) (m : Int) (p : V3) (i : Int) :
    List (Int × Int × Nat) :=
  (taggedSlots g p).map (fun tz =>
    instTuple ((g.nodes.length : Nat) : Int) m i tz.1 tz.2)

/-- C1: for the valid (connected, well-formed) periodic multigraph
gSelfLoops the two periodicity algorithms disagree on the cardinality of
the periodicity-vector set: all_simple_paths finds a single vector (each
node only sees its own self-loop through simple closed paths, and the final
selection keeps a per-node maximum rather than a union), while cycle_basis
finds two independent vectors. -/
theorem c1_periodicity_algorithms_disagree :
    compute_periodicity_all_simple_paths_algorithm gSelfLoops = [(1, 0, 0)] ∧
    compute_periodicity_cycle_basis gSelfLoops =
      .ok [(1, 0, 0), (0, 1, 0)] ∧
    is_connected gSelfLoops = true := by
  refine ⟨by decide, by decide, by decide⟩

/-- C2 (amended): whenever elastic_centered_graph returns a graph, the
subgraph of that graph restricted to edges with delta exactly zero connects
all original nodes; a disconnected zero-delta subgraph is only ever reported
through the raised structural failure, never returned. -/
theorem c2_elastic_centered_graph_zero_connected :
    ∀ (cc : CState) (start_node : Option Node) (g' : MGraph Node),
      elastic_centered_graph cc start_node = .ok g' →
      zeroConnected g' = true := by
  intro cc start_node g' h
  unfold elastic_centered_graph at h
  cases hh : cc.graph.nodes.head? with
  | none => rw [hh] at h; exact absurd h (by simp)
  | some root =>
    rw [hh] at h
    simp only [bind, Except.bind] at h
    cases hl : levelLoop (bfs_tree cc.graph root) (cc.graph.nodes.length + 1)
        { nodes := cc.graph.nodes, edges := cc.graph.edges } [root] with
    | error e => rw [hl] at h; exact absurd h (by simp)
    | ok gg =>
      rw [hl] at h
      by_cases hc : is_connected (zeroDeltaSubgraph gg)
      · simp only [hc, if_true, pure, Except.pure] at h
        cases h
        exact hc
      · simp only [hc, if_false, throw, throwThe, MonadExceptOf.throw] at h
        exact absurd h (by simp)

/-- C2 witness: on the concrete graph gSingleEdge the centering succeeds and
the returned graph's zero-delta subgraph is connected. -/
theorem c2_elastic_centered_graph_zero_connected_witness :
    zeroConnectedExcept (elastic_centered_graph ⟨gSingleEdge, none⟩ none) =
      true := by
  cases h : elastic_centered_graph ⟨gSingleEdge, none⟩ none with
  | error e =>
    have hok : (elastic_centered_graph ⟨gSingleEdge, none⟩ none).isOk = true := by
      decide
    rw [h] at hok
    exact absurd hok (by simp [Except.isOk, Except.toBool])
  | ok g =>
    simpa [zeroConnectedExcept] using
      c2_elastic_centered_graph_zero_connected ⟨gSingleEdge, none⟩ none g h

/-- C2 counterexample: on the malformed fixture gIsolatedPairX the centering
fails, but the raised error is the fixed message of the source, which does
not include which node was used as root: the run on gIsolatedPairY, whose
root is a different node (site 7 instead of site 5), produces the very same
error value. -/
theorem c2_error_report_omits_root :
    elastic_centered_graph ⟨gIsolatedPairX, none⟩ none =
      .error "Could not find a centered graph." ∧
    elastic_centered_graph ⟨gIsolatedPairY, none⟩ none =
      elastic_centered_graph ⟨gIsolatedPairX, none⟩ none := by
  refine ⟨by decide, by decide⟩

/-- C5: get_delta returns the recorded delta when node1/node2 match
start/end, the negated delta when only the reversed roles match, and the
data-consistency ValueError when neither order matches. -/
theorem c5_get_delta_orientation :
    ∀ (n1 n2 : Node) (ed : EdgeData),
      (n1.isite = ed.start ∧ n2.isite = ed.end_ →
        get_delta n1 n2 ed = .ok ed.delta) ∧
      (¬(n1.isite = ed.start ∧ n2.isite = ed.end_) →
        n2.isite = ed.start ∧ n1.isite = ed.end_ →
        get_delta n1 n2 ed = .ok (vneg ed.delta)) ∧
      (¬(n1.isite = ed.start ∧ n2.isite = ed.end_) →
        ¬(n2.isite = ed.start ∧ n1.isite = ed.end_) →
        get_delta n1 n2 ed =
          .error "Trying to find a delta between two nodes with an edge that seem not to link these nodes") := by
  intro n1 n2 ed
  refine ⟨fun h => ?_, fun h1 h2 => ?_, fun h1 h2 => ?_⟩
  · simp only [get_delta, if_pos h]
  · simp only [get_delta, if_neg h1, if_pos h2]
  · simp only [get_delta, if_neg h1, if_neg h2]

/-- C5 witness: the three branches of get_delta at concrete inputs. -/
theorem c5_get_delta_orientation_witness :
    get_delta ⟨0, 0⟩ ⟨1, 1⟩ ⟨0, 1, (1, 2, 3)⟩ = .ok (1, 2, 3) ∧
    get_delta ⟨1, 1⟩ ⟨0, 0⟩ ⟨0, 1, (1, 2, 3)⟩ = .ok (vneg (1, 2, 3)) ∧
    get_delta ⟨2, 5⟩ ⟨1, 1⟩ ⟨0, 1, (1, 2, 3)⟩ =
      .error "Trying to find a delta between two nodes with an edge that seem not to link these nodes" :=
  ⟨(c5_get_delta_orientation ⟨0, 0⟩ ⟨1, 1⟩ ⟨0, 1, (1, 2, 3)⟩).1 (by decide),
   (c5_get_delta_orientation ⟨1, 1⟩ ⟨0, 0⟩ ⟨0, 1, (1, 2, 3)⟩).2.1 (by decide)
     (by decide),
   (c5_get_delta_orientation ⟨2, 5⟩ ⟨1, 1⟩ ⟨0, 1, (1, 2, 3)⟩).2.2 (by decide)
     (by decide)⟩

/-- C6 counterexample: in gParallel the root's tree-neighbor nodeB is not
placed by any zero-delta edge and two distinct non-zero deltas exist between
the two nodes, yet elastic centering completes without any fatal fault. -/
theorem c6_multiple_nonzero_deltas_not_fatal :
    treeChildren (bfs_tree gParallel nodeA) nodeA = [nodeB] ∧
    ddeltasOf gParallel nodeA nodeB = .ok (false, [(1, 0, 0), (2, 0, 0)]) ∧
    (elastic_centered_graph ⟨gParallel, none⟩ none).isOk = true := by
  refine ⟨by decide, by decide, by decide⟩

/-- C6 (amended): during elastic centering the fatal consistency fault for a
(node, tree-neighbor) pair is finding more than one ZERO delta between them;
when the neighbor is not already placed by a zero-delta edge, the centering
does not require the non-zero delta to be unique: it silently uses the
first delta in edge order as the correction. -/
theorem c6_zero_delta_fault_and_first_delta :
    ∀ (g : MGraph Node) (node node_neighbor : Node) (ai : Bool)
      (dds : List V3),
      ddeltasOf g node node_neighbor = .ok (ai, dds) →
      (1 < dds.count vzero →
        processNeighbor g node node_neighbor =
          .error "Should not have more than one 000 delta ...") ∧
      (¬ 1 < dds.count vzero → ai = true →
        processNeighbor g node node_neighbor = .ok g) ∧
      (¬ 1 < dds.count vzero → ai = false →
        processNeighbor g node node_neighbor =
          (match (dds.erase vzero).head? with
           | none => .error "IndexError: list index out of range"
           | some d => applyCorrections g node_neighbor d)) := by
  intro g node node_neighbor ai dds h
  have hbody : processNeighbor g node node_neighbor =
      (if 1 < dds.count vzero then
        .error "Should not have more than one 000 delta ..."
      else if ai then .ok g
      else
        (match (dds.erase vzero).head? with
         | none => .error "IndexError: list index out of range"
         | some d => applyCorrections g node_neighbor d)) := by
    unfold processNeighbor
    rw [h]
    rfl
  refine ⟨fun hc => ?_, fun hc ha => ?_, fun hc ha => ?_⟩
  · rw [hbody, if_pos hc]
  · subst ha
    rw [hbody, if_neg hc]
    rfl
  · subst ha
    rw [hbody, if_neg hc]
    rfl

/-- C6 witness: on gParallel the neighbor is pulled by the first listed
delta (1,0,0) even though a second distinct non-zero delta exists. -/
theorem c6_zero_delta_fault_and_first_delta_witness :
    processNeighbor gParallel nodeA nodeB =
      (match (([(1, 0, 0), (2, 0, 0)] : List V3).erase vzero).head? with
       | none => Except.error "IndexError: list index out of range"
       | some d => applyCorrections gParallel nodeB d) :=
  (c6_zero_delta_fault_and_first_delta gParallel nodeA nodeB false
    [(1, 0, 0), (2, 0, 0)] (by decide)).2.2 (by decide) rfl

/-- C7: the periodicity-vector cache: any first property access returns the
value derived from the computed-or-cached list and stores that list; any
subsequent access on the resulting state returns its value from the stored
list and leaves the state unchanged (no recomputation, no invalidation). -/
theorem c7_periodicity_cache :
    ∀ (s : CState) (a b : Accessor),
      accessProperty a s = (valueOf a (getPV s), forceCache s) ∧
      accessProperty b (forceCache s) =
        (valueOf b (getPV s), forceCache s) := by
  intro s a b
  obtain ⟨gr, pv⟩ := s
  constructor
  · cases a <;> cases pv <;>
      simp [accessProperty, is_0d, is_1d, is_2d, is_3d, is_periodic,
        periodicity_vectors, periodicity, getPVState, getPV, forceCache,
        valueOf]
  · cases b <;> cases pv <;>
      simp [accessProperty, is_0d, is_1d, is_2d, is_3d, is_periodic,
        periodicity_vectors, periodicity, getPVState, getPV, forceCache,
        valueOf]

/-- C8: an unknown periodicity algorithm name is a ValueError from
compute_periodicity, and a multiplicity that is a sequence of length other
than one is a NotImplementedError from make_supergraph; neither branch
returns a result. -/
theorem c8_configuration_faults :
    ∀ (s : CState) (algorithm : String) (g : MGraph Node) (l : List Int)
      (pvs : List V3),
      (algorithm ≠ "all_simple_paths" → algorithm ≠ "cycle_basis" →
        compute_periodicity s algorithm =
          .error ("Algorithm \"" ++ algorithm ++
            "\" is not allowed to compute periodicity")) ∧
      (l.length ≠ 1 →
        make_supergraph g (.seq l) pvs =
          .error "make_supergraph not yet implemented for 2- and 3-periodic graphs") := by
  intro s algorithm g l pvs
  constructor
  · intro h1 h2
    simp [compute_periodicity, h1, h2]
  · intro h
    match l with
    | [] => rfl
    | [m] => exact absurd rfl h
    | a :: b :: rest => rfl

/-- C8 witness: the two faults at concrete inputs. -/
theorem c8_configuration_faults_witness :
    compute_periodicity ⟨emptyGraph, none⟩ "foo" =
      .error "Algorithm \"foo\" is not allowed to compute periodicity" ∧
    make_supergraph emptyGraph (.seq [2, 3]) [] =
      .error "make_supergraph not yet implemented for 2- and 3-periodic graphs" :=
  ⟨(c8_configuration_faults ⟨emptyGraph, none⟩ "foo" emptyGraph [2, 3] []).1
     (by decide) (by decide),
   (c8_configuration_faults ⟨emptyGraph, none⟩ "foo" emptyGraph [2, 3] []).2
     (by decide)⟩

/-- C9: as_dict records only the module and class identity, independently of
the component's graph; but from_dict on that dict does not yield a fresh
empty component: cls() iterates environments=None inside __init__ and dies
with a TypeError, contradicting from_dict's own docstring. -/
theorem c9_as_dict_minimal_from_dict_raises :
    ∀ c : CState,
      as_dict c =
        [("@module",
          "pymatgen.analysis.chemenv.connectivity.connected_components"),
         ("@class", "ConnectedComponent")] ∧
      from_dict (as_dict c) =
        .error "TypeError: NoneType object is not iterable" := by
  intro c
  exact ⟨rfl, rfl⟩

/-- C3 counterexample: gLadder has 2 nodes and 2 edges and is single-axis
periodic along (1,0,0); make_supergraph with multiplicity 2 returns a graph
with 4 nodes (as the claim says) but 4 edges, not the input's 2: the edge
count is not preserved, every copy replicates the full edge list. -/
theorem c3_edge_count_not_preserved :
    gLadder.edges.length = 2 ∧
    compute_periodicity_all_simple_paths_algorithm gLadder = [(1, 0, 0)] ∧
    (make_supergraph gLadder (.int 2) [(1, 0, 0)]).map
      (fun sg => (sg.nodes.length, sg.edges.length)) = .ok (4, 4) := by
  refine ⟨by decide, by decide, by decide⟩

/-! Lemmas for C3: the supergraph counting argument. -/

theorem mem_insertNew {α : Type} [DecidableEq α] (l : List α) (x y : α) :
    y ∈ insertNew l x ↔ y ∈ l ∨ y = x := by
  unfold insertNew
  by_cases h : x ∈ l
  · rw [if_pos h]
    exact ⟨fun hy => Or.inl hy, fun hy => hy.elim id (fun he => he ▸ h)⟩
  · rw [if_neg h]
    simp

theorem slotClash_symm {α : Type} {a b : α × α × Nat} (h : slotClash a b) :
    slotClash b a := by
  obtain ⟨hk, h2⟩ := h
  refine ⟨hk.symm, ?_⟩
  rcases h2 with ⟨h1, h2⟩ | ⟨h1, h2⟩
  · exact Or.inl ⟨h1.symm, h2.symm⟩
  · exact Or.inr ⟨h2.symm, h1.symm⟩

theorem sameSlot_iff_slotClash {α : Type} [DecidableEq α] (e : MEdge α)
    (u v : α) (k : Nat) :
    sameSlot e u v k = true ↔ slotClash (stripT e) (u, v, k) := by
  simp [sameSlot, slotClash, stripT]

theorem insertNew_nodup {α : Type} [DecidableEq α] {l : List α} (h : l.Nodup)
    (x : α) : (insertNew l x).Nodup := by
  unfold insertNew
  by_cases hx : x ∈ l
  · rwa [if_pos hx]
  · rw [if_neg hx]
    rw [List.nodup_append]
    exact ⟨h, List.nodup_singleton x, by simpa using hx⟩

theorem foldl_addEdge_nodes_nodup :
    ∀ (L : List (MEdge Int)) (g0 : MGraph Int), g0.nodes.Nodup →
      (L.foldl (fun sg e => addEdge sg e.n1 e.n2 e.key e.data) g0).nodes.Nodup := by
  intro L
  induction L with
  | nil => intro g0 h; simpa
  | cons a rest ih =>
    intro g0 h
    simp only [List.foldl_cons]
    exact ih _ (insertNew_nodup (insertNew_nodup h _) _)

theorem foldl_addEdge_nodes_mem :
    ∀ (L : List (MEdge Int)) (g0 : MGraph Int) (x : Int),
      (x ∈ (L.foldl (fun sg e => addEdge sg e.n1 e.n2 e.key e.data) g0).nodes ↔
        x ∈ g0.nodes ∨ ∃ e ∈ L, x = e.n1 ∨ x = e.n2) := by
  intro L
  induction L with
  | nil => intro g0 x; simp
  | cons a rest ih =>
    intro g0 x
    simp only [List.foldl_cons]
    rw [ih]
    have hn : (addEdge g0 a.n1 a.n2 a.key a.data).nodes =
        insertNew (insertNew g0.nodes a.n1) a.n2 := rfl
    rw [hn, mem_insertNew, mem_insertNew]
    simp only [List.mem_cons]
    constructor
    · rintro (((hg | h1) | h2) | ⟨e, he, hor⟩)
      · exact Or.inl hg
      · exact Or.inr ⟨a, Or.inl rfl, Or.inl h1⟩
      · exact Or.inr ⟨a, Or.inl rfl, Or.inr h2⟩
      · exact Or.inr ⟨e, Or.inr he, hor⟩
    · rintro (hg | ⟨e, (rfl | he), hor⟩)
      · exact Or.inl (Or.inl (Or.inl hg))
      · rcases hor with h1 | h2
        · exact Or.inl (Or.inl (Or.inr h1))
        · exact Or.inl (Or.inr h2)
      · exact Or.inr ⟨e, he, hor⟩

theorem foldl_addEdge_length :
    ∀ (L : List (MEdge Int)) (g0 : MGraph Int),
      (∀ a ∈ L, ∀ e ∈ g0.edges, ¬ slotClash (stripT e) (stripT a)) →
      L.Pairwise (fun a b => ¬ slotClash (stripT a) (stripT b)) →
      (L.foldl (fun sg e => addEdge sg e.n1 e.n2 e.key e.data) g0).edges.length
        = g0.edges.length + L.length := by
  intro L
  induction L with
  | nil => intro g0 _ _; simp
  | cons a rest ih =>
    intro g0 hfree hpw
    simp only [List.foldl_cons]
    have hany : (g0.edges.any (fun e => sameSlot e a.n1 a.n2 a.key)) = false := by
      rw [List.any_eq_false]
      intro e he
      rw [Bool.not_eq_true]
      by_contra hne
      rw [Bool.not_eq_false] at hne
      exact hfree a (List.mem_cons_self _ _) e he
        ((sameSlot_iff_slotClash e a.n1 a.n2 a.key).mp hne)
    have haE : (addEdge g0 a.n1 a.n2 a.key a.data).edges = g0.edges ++ [a] := by
      simp only [addEdge, hany]
      rfl
    have hsub : rest.Pairwise (fun a b => ¬ slotClash (stripT a) (stripT b)) :=
      (List.pairwise_cons.mp hpw).2
    have hfree' : ∀ b ∈ rest, ∀ e ∈ (addEdge g0 a.n1 a.n2 a.key a.data).edges,
        ¬ slotClash (stripT e) (stripT b) := by
      intro b hb e he
      rw [haE] at he
      rcases List.mem_append.mp he with he' | he'
      · exact hfree b (List.mem_cons_of_mem _ hb) e he'
      · have heq : e = a := by simpa using he'
        subst heq
        exact (List.pairwise_cons.mp hpw).1 b hb
    rw [ih (addEdge g0 a.n1 a.n2 a.key a.data) hfree' hsub, haE]
    simp only [List.length_append, List.length_cons, List.length_nil]
    omega

theorem decomp_unique {N a b i j : Int} (hN : 0 < N) (ha0 : 0 ≤ a)
    (haN : a < N) (hb0 : 0 ≤ b) (hbN : b < N) (h : i * N + a = j * N + b) :
    i = j ∧ a = b := by
  have hij : i = j := by
    rcases lt_trichotomy i j with hlt | heq | hgt
    · exfalso
      have h2 : (i + 1) * N ≤ j * N :=
        mul_le_mul_of_nonneg_right (by omega : i + 1 ≤ j) (le_of_lt hN)
      have h3 : i * N + N ≤ j * N := by nlinarith [h2]
      linarith
    · exact heq
    · exfalso
      have h2 : (j + 1) * N ≤ i * N :=
        mul_le_mul_of_nonneg_right (by omega : j + 1 ≤ i) (le_of_lt hN)
      have h3 : j * N + N ≤ i * N := by nlinarith [h2]
      linarith
  refine ⟨hij, ?_⟩
  rw [hij] at h
  linarith

theorem wcopy_bounds {m i : Int} (hi0 : 0 ≤ i) (him : i < m) :
    0 ≤ wcopy m i ∧ wcopy m i < m := by
  unfold wcopy
  split <;> omega

theorem wcopy_inj {m : Int} {i j : Int} (hi0 : 0 ≤ i) (hj0 : 0 ≤ j)
    (h : wcopy m i = wcopy m j) : i = j := by
  unfold wcopy at h
  split at h <;> split at h <;> omega

theorem wcopy_eq_self {m i : Int} (h : wcopy m i = i) : m = i + 1 := by
  unfold wcopy at h
  split at h <;> omega

theorem wcopy_swap {m i j : Int} (hij : i ≠ j) (h1 : wcopy m i = j)
    (h2 : wcopy m j = i) :
    m = 2 ∧ ((i = 0 ∧ j = 1) ∨ (i = 1 ∧ j = 0)) := by
  unfold wcopy at h1 h2
  split at h1 <;> split at h2 <;> omega

theorem splitEdges_cons (p : V3) (e : MEdge Node) (rest : List (MEdge Node)) :
    splitEdges p (e :: rest) =
      (if e.data.delta = p then
        (e :: (splitEdges p rest).1, (splitEdges p rest).2)
      else if e.data.delta = vneg p then
        ({ e with data := flipData e.data } :: (splitEdges p rest).1,
          (splitEdges p rest).2)
      else ((splitEdges p rest).1, e :: (splitEdges p rest).2)) := by
  cases hs : splitEdges p rest with
  | mk cs os => simp only [splitEdges, hs]

theorem splitEdges_strip_perm (p : V3) :
    ∀ l : List (MEdge Node),
      ((splitEdges p l).1.map stripT ++ (splitEdges p l).2.map stripT).Perm
        (l.map stripT) := by
  intro l
  induction l with
  | nil => simp [splitEdges]
  | cons e rest ih =>
    rw [splitEdges_cons]
    by_cases h1 : e.data.delta = p
    · rw [if_pos h1]
      simpa using ih.cons (stripT e)
    · rw [if_neg h1]
      by_cases h2 : e.data.delta = vneg p
      · rw [if_pos h2]
        have hflip : stripT { e with data := flipData e.data } = stripT e := rfl
        simp only [List.map_cons, hflip, List.cons_append, List.map_cons]
        simpa using ih.cons (stripT e)
      · rw [if_neg h2]
        simp only [List.map_cons]
        exact List.Perm.trans List.perm_middle (ih.cons (stripT e))

theorem splitEdges_length (p : V3) (l : List (MEdge Node)) :
    (splitEdges p l).1.length + (splitEdges p l).2.length = l.length := by
  have h := (splitEdges_strip_perm p l).length_eq
  simpa using h

theorem splitEdges_cs_origin (p : V3) :
    ∀ (l : List (MEdge Node)), ∀ e' ∈ (splitEdges p l).1,
      ∃ e ∈ l, e'.n1 = e.n1 ∧ e'.n2 = e.n2 ∧ e'.key = e.key ∧
        (e.data.delta = p ∨ e.data.delta = vneg p) := by
  intro l
  induction l with
  | nil => intro e' h; exact absurd h (by simp [splitEdges])
  | cons e rest ih =>
    intro e' h
    rw [splitEdges_cons] at h
    by_cases h1 : e.data.delta = p
    · rw [if_pos h1] at h
      rcases List.mem_cons.mp h with rfl | h'
      · exact ⟨e', by simp, rfl, rfl, rfl, Or.inl h1⟩
      · obtain ⟨f, hf, hp⟩ := ih e' h'
        exact ⟨f, by simp [hf], hp⟩
    · rw [if_neg h1] at h
      by_cases h2 : e.data.delta = vneg p
      · rw [if_pos h2] at h
        rcases List.mem_cons.mp h with rfl | h'
        · exact ⟨e, by simp, rfl, rfl, rfl, Or.inr h2⟩
        · obtain ⟨f, hf, hp⟩ := ih e' h'
          exact ⟨f, by simp [hf], hp⟩
      · rw [if_neg h2] at h
        obtain ⟨f, hf, hp⟩ := ih e' h
        exact ⟨f, by simp [hf], hp⟩

theorem splitEdges_os_sub (p : V3) :
    ∀ (l : List (MEdge Node)), ∀ e' ∈ (splitEdges p l).2, e' ∈ l := by
  intro l
  induction l with
  | nil => intro e' h; exact absurd h (by simp [splitEdges])
  | cons e rest ih =>
    intro e' h
    rw [splitEdges_cons] at h
    by_cases h1 : e.data.delta = p
    · rw [if_pos h1] at h
      exact List.mem_cons_of_mem _ (ih e' h)
    · rw [if_neg h1] at h
      by_cases h2 : e.data.delta = vneg p
      · rw [if_pos h2] at h
        exact List.mem_cons_of_mem _ (ih e' h)
      · rw [if_neg h2] at h
        rcases List.mem_cons.mp h with rfl | h'
        · exact List.mem_cons_self _ _
        · exact List.mem_cons_of_mem _ (ih e' h')

theorem splitEdges_cover (p : V3) :
    ∀ (l : List (MEdge Node)), ∀ e ∈ l,
      e ∈ (splitEdges p l).2 ∨
      ∃ e' ∈ (splitEdges p l).1, e'.n1 = e.n1 ∧ e'.n2 = e.n2 := by
  intro l
  induction l with
  | nil => intro e h; exact absurd h (by simp)
  | cons f rest ih =>
    intro e h
    rw [splitEdges_cons]
    rcases List.mem_cons.mp h with rfl | h'
    · by_cases h1 : e.data.delta = p
      · rw [if_pos h1]
        exact Or.inr ⟨e, by simp, rfl, rfl⟩
      · rw [if_neg h1]
        by_cases h2 : e.data.delta = vneg p
        · rw [if_pos h2]
          exact Or.inr ⟨{ e with data := flipData e.data }, by simp, rfl, rfl⟩
        · rw [if_neg h2]
          exact Or.inl (by simp)
    · rcases ih e h' with hos | ⟨e', he', hp⟩
      · by_cases h1 : f.data.delta = p
        · rw [if_pos h1]; exact Or.inl hos
        · rw [if_neg h1]
          by_cases h2 : f.data.delta = vneg p
          · rw [if_pos h2]; exact Or.inl hos
          · rw [if_neg h2]; exact Or.inl (List.mem_cons_of_mem _ hos)
      · by_cases h1 : f.data.delta = p
        · rw [if_pos h1]; exact Or.inr ⟨e', by simp [he'], hp⟩
        · rw [if_neg h1]
          by_cases h2 : f.data.delta = vneg p
          · rw [if_pos h2]; exact Or.inr ⟨e', by simp [he'], hp⟩
          · rw [if_neg h2]; exact Or.inr ⟨e', he', hp⟩

theorem nodeIndex_bounds (g : MGraph Node) {n : Node} (h : n ∈ g.nodes) :
    0 ≤ nodeIndex g n ∧ nodeIndex g n < ((g.nodes.length : Nat) : Int) := by
  unfold nodeIndex
  refine ⟨Int.natCast_nonneg _, ?_⟩
  exact_mod_cast List.indexOf_lt_length.mpr h

theorem nodeIndex_inj (g : MGraph Node) {a b : Node} (ha : a ∈ g.nodes)
    (hb : b ∈ g.nodes) (h : nodeIndex g a = nodeIndex g b) : a = b := by
  unfold nodeIndex at h
  have h' : g.nodes.indexOf a = g.nodes.indexOf b := by exact_mod_cast h
  exact (List.indexOf_inj ha hb).mp h'

theorem stripT_otherInst (N : Int) (idx : Node → Int) (i : Int)
    (e : MEdge Node) (g : MGraph Node) (m : Int)
    (hidx : idx = nodeIndex g) :
    stripT (otherInst N idx i e) = instTuple N m i false (idxStrip g e) := by
  subst hidx
  rfl

theorem stripT_connInstFinal (N : Int) (i : Int) (e : MEdge Node)
    (g : MGraph Node) (m : Int) (hi : i = m - 1) :
    stripT (connInstFinal N (nodeIndex g) i e) =
      instTuple N m i true (idxStrip g e) := by
  subst hi
  simp only [stripT, connInstFinal, instTuple, idxStrip, if_pos, wcopy]
  rw [if_pos (by omega : m - 1 + 1 = m)]
  simp

theorem stripT_connInstMid (g : MGraph Node) (m : Int) (i : Int)
    (e : MEdge Node) (hi0 : 0 ≤ i) (him : i < m - 1)
    (hb2 : 0 ≤ nodeIndex g e.n2 ∧
      nodeIndex g e.n2 < ((g.nodes.length : Nat) : Int)) :
    stripT (connInstMid ((g.nodes.length : Nat) : Int) m (nodeIndex g) i e) =
      instTuple ((g.nodes.length : Nat) : Int) m i true (idxStrip g e) := by
  have hN : (0 : Int) < ((g.nodes.length : Nat) : Int) := by omega
  simp only [stripT, connInstMid, instTuple, idxStrip, wcopy]
  rw [if_neg (by omega : ¬ i + 1 = m)]
  refine congrArg _ (congrArg (fun x => (x, e.key)) ?_)
  apply Int.emod_eq_of_lt
  · have : (0 : Int) ≤ (i + 1) * ((g.nodes.length : Nat) : Int) :=
      mul_nonneg (by omega) (by omega)
    omega
  · have h1 : (i + 1) * ((g.nodes.length : Nat) : Int) +
        ((g.nodes.length : Nat) : Int) =
        (i + 2) * ((g.nodes.length : Nat) : Int) := by ring
    have h2 : (i + 2) * ((g.nodes.length : Nat) : Int) ≤
        m * ((g.nodes.length : Nat) : Int) :=
      mul_le_mul_of_nonneg_right (by omega) (by omega)
    have h3 : ((g.nodes.length : Nat) : Int) * m =
        m * ((g.nodes.length : Nat) : Int) := by ring
    omega

theorem flatMap_congr_mem {α β : Type} {l : List α} {f g : α → List β}
    (h : ∀ a ∈ l, f a = g a) : l.flatMap f = l.flatMap g := by
  induction l with
  | nil => rfl
  | cons a rest ih =>
    simp only [List.flatMap_cons]
    rw [h a (by simp), ih (fun b hb => h b (by simp [hb]))]

theorem stripCopy_eq (g : MGraph Node) (m : Int) (p : V3) (i : Int) :
    stripCopy g m p i =
      (splitEdges p g.edges).2.map (fun e =>
        instTuple ((g.nodes.length : Nat) : Int) m i false (idxStrip g e)) ++
      (splitEdges p g.edges).1.map (fun e =>
        instTuple ((g.nodes.length : Nat) : Int) m i true (idxStrip g e)) := by
  unfold stripCopy taggedSlots
  rw [List.map_append, List.map_map, List.map_map]
  rfl

theorem strip_supergraphEdgeList (g : MGraph Node) (m : Int) (p : V3)
    (hm : 1 ≤ m)
    (hend : ∀ e ∈ g.edges, e.n1 ∈ g.nodes ∧ e.n2 ∈ g.nodes) :
    (supergraphEdgeList g m p).map stripT =
      (List.range m.toNat).flatMap (fun i => stripCopy g m p (i : Int)) := by
  have hcsb : ∀ e ∈ (splitEdges p g.edges).1,
      0 ≤ nodeIndex g e.n2 ∧
        nodeIndex g e.n2 < ((g.nodes.length : Nat) : Int) := by
    intro e he
    obtain ⟨f, hf, _, h2, _⟩ := splitEdges_cs_origin p g.edges e he
    rw [h2]
    exact nodeIndex_bounds g (hend f hf).2
  have hsplit : m.toNat = (m - 1).toNat + 1 := by omega
  rw [hsplit, List.range_succ, List.flatMap_append, List.flatMap_singleton]
  cases hse : splitEdges p g.edges with
  | mk cs os =>
    have hcsb' : ∀ e ∈ cs, 0 ≤ nodeIndex g e.n2 ∧
        nodeIndex g e.n2 < ((g.nodes.length : Nat) : Int) := by
      intro e he
      exact hcsb e (by rw [hse]; exact he)
    have hcopy : ∀ i : Int, stripCopy g m p i =
        os.map (fun e =>
          instTuple ((g.nodes.length : Nat) : Int) m i false (idxStrip g e)) ++
        cs.map (fun e =>
          instTuple ((g.nodes.length : Nat) : Int) m i true (idxStrip g e)) := by
      intro i
      rw [stripCopy_eq, hse]
    simp only [supergraphEdgeList, hse, List.map_append]
    have hlast : ((((m - 1).toNat : Nat) : Int)) = m - 1 := by omega
    rw [List.append_assoc]
    congr 1
    · -- the copies 0 .. m-2
      rw [List.map_flatMap]
      apply flatMap_congr_mem
      intro i hi
      have hiN : (i : Int) < m - 1 := by
        have := List.mem_range.mp hi
        omega
      have hi0 : (0 : Int) ≤ (i : Int) := by omega
      rw [List.map_append, List.map_map, List.map_map, hcopy]
      have hos : os.map
          (stripT ∘ otherInst ((g.nodes.length : Nat) : Int) (nodeIndex g)
            (i : Int)) =
          os.map (fun e =>
            instTuple ((g.nodes.length : Nat) : Int) m (i : Int) false
              (idxStrip g e)) :=
        List.map_congr_left (fun e _ => stripT_otherInst _ _ _ e g m rfl)
      have hcs : cs.map
          (stripT ∘ connInstMid ((g.nodes.length : Nat) : Int) m (nodeIndex g)
            (i : Int)) =
          cs.map (fun e =>
            instTuple ((g.nodes.length : Nat) : Int) m (i : Int) true
              (idxStrip g e)) :=
        List.map_congr_left (fun e he =>
          stripT_connInstMid g m (i : Int) e hi0 hiN (hcsb' e he))
      rw [hos, hcs]
    · -- the final copy
      rw [hcopy, hlast, List.map_map, List.map_map]
      have hos : os.map
          (stripT ∘ otherInst ((g.nodes.length : Nat) : Int) (nodeIndex g)
            (m - 1)) =
          os.map (fun e =>
            instTuple ((g.nodes.length : Nat) : Int) m (m - 1) false
              (idxStrip g e)) :=
        List.map_congr_left (fun e _ => stripT_otherInst _ _ _ e g m rfl)
      have hcs : cs.map
          (stripT ∘ connInstFinal ((g.nodes.length : Nat) : Int) (nodeIndex g)
            (m - 1)) =
          cs.map (fun e =>
            instTuple ((g.nodes.length : Nat) : Int) m (m - 1) true
              (idxStrip g e)) :=
        List.map_congr_left (fun e _ => stripT_connInstFinal _ _ e g m rfl)
      rw [hos, hcs]

theorem nodeIndex_surj (g : MGraph Node) (hnd : g.nodes.Nodup) {r : Int}
    (h0 : 0 ≤ r) (hr : r < ((g.nodes.length : Nat) : Int)) :
    ∃ n ∈ g.nodes, nodeIndex g n = r := by
  have hlt : r.toNat < g.nodes.length := by omega
  refine ⟨g.nodes[r.toNat], List.getElem_mem hlt, ?_⟩
  unfold nodeIndex
  rw [List.indexOf_getElem hnd r.toNat hlt]
  omega

theorem pairwise_flatMap {β γ : Type} {R : γ → γ → Prop} {f : β → List γ} :
    ∀ {l : List β}, l.Pairwise (fun a b => ∀ x ∈ f a, ∀ y ∈ f b, R x y) →
      (∀ a ∈ l, (f a).Pairwise R) → (l.flatMap f).Pairwise R := by
  intro l
  induction l with
  | nil => intro _ _; simp
  | cons a rest ih =>
    intro hpw hin
    rw [List.flatMap_cons, List.pairwise_append]
    obtain ⟨hhead, htail⟩ := List.pairwise_cons.mp hpw
    refine ⟨hin a (by simp), ih htail (fun b hb => hin b (by simp [hb])), ?_⟩
    intro x hx y hy
    obtain ⟨b, hb, hyb⟩ := List.mem_flatMap.mp hy
    exact hhead b hb x hx y hyb

theorem pairwise_tag {R : MEdge Node → MEdge Node → Prop}
    {os cs : List (MEdge Node)} (h : (os ++ cs).Pairwise R) :
    (os.map (fun e => (false, e)) ++ cs.map (fun e => (true, e))).Pairwise
      (fun (a b : Bool × MEdge Node) => R a.2 b.2) := by
  rw [List.pairwise_append] at h ⊢
  obtain ⟨h1, h2, h3⟩ := h
  refine ⟨List.pairwise_map.mpr h1, List.pairwise_map.mpr h2, ?_⟩
  intro x hx y hy
  obtain ⟨a, ha, rfl⟩ := List.mem_map.mp hx
  obtain ⟨b, hb, rfl⟩ := List.mem_map.mp hy
  exact h3 a ha b hb

theorem taggedSlots_eq (g : MGraph Node) (p : V3) :
    taggedSlots g p =
      ((splitEdges p g.edges).2.map (fun e => (false, e)) ++
       (splitEdges p g.edges).1.map (fun e => (true, e))).map
        (fun te => (te.1, idxStrip g te.2)) := by
  unfold taggedSlots
  rw [List.map_append, List.map_map, List.map_map]
  rfl

theorem instTuple_no_clash_of_input {N m i j : Int} {ta tb : Bool}
    {z w : Int × Int × Nat}
    (hi : 0 ≤ i ∧ i < m) (hj : 0 ≤ j ∧ j < m)
    (hz : 0 ≤ z.1 ∧ z.1 < N ∧ 0 ≤ z.2.1 ∧ z.2.1 < N)
    (hw : 0 ≤ w.1 ∧ w.1 < N ∧ 0 ≤ w.2.1 ∧ w.2.1 < N)
    (hzw : ¬ slotClash z w) :
    ¬ slotClash (instTuple N m i ta z) (instTuple N m j tb w) := by
  intro hcl
  have hN : (0 : Int) < N := by omega
  have hci : 0 ≤ (if ta then wcopy m i else i) ∧
      (if ta then wcopy m i else i) < m := by
    split
    · exact wcopy_bounds hi.1 hi.2
    · exact hi
  have hcj : 0 ≤ (if tb then wcopy m j else j) ∧
      (if tb then wcopy m j else j) < m := by
    split
    · exact wcopy_bounds hj.1 hj.2
    · exact hj
  obtain ⟨hk, hbr⟩ := hcl
  simp only [instTuple] at hk hbr
  rcases hbr with ⟨h1, h2⟩ | ⟨h1, h2⟩
  · obtain ⟨_, hz1⟩ :=
      decomp_unique hN hz.1 hz.2.1 hw.1 hw.2.1 h1
    obtain ⟨_, hz2⟩ :=
      decomp_unique hN hz.2.2.1 hz.2.2.2 hw.2.2.1 hw.2.2.2 h2
    exact hzw ⟨hk, Or.inl ⟨hz1, hz2⟩⟩
  · obtain ⟨_, hz1⟩ :=
      decomp_unique hN hz.1 hz.2.1 hw.2.2.1 hw.2.2.2 h1
    obtain ⟨_, hz2⟩ :=
      decomp_unique hN hz.2.2.1 hz.2.2.2 hw.1 hw.2.1 h2
    exact hzw ⟨hk, Or.inr ⟨hz1, hz2⟩⟩

theorem instTuple_no_clash_same {N m i j : Int} {t : Bool}
    {z : Int × Int × Nat}
    (hij : i ≠ j)
    (hz : 0 ≤ z.1 ∧ z.1 < N ∧ 0 ≤ z.2.1 ∧ z.2.1 < N)
    (hsl : t = true → m = 2 → z.1 ≠ z.2.1) :
    ¬ slotClash (instTuple N m i t z) (instTuple N m j t z) := by
  intro hcl
  have hN : (0 : Int) < N := by omega
  obtain ⟨_, hbr⟩ := hcl
  simp only [instTuple] at hbr
  rcases hbr with ⟨h1, _⟩ | ⟨h1, h2⟩
  · exact hij (decomp_unique hN hz.1 hz.2.1 hz.1 hz.2.1 h1).1
  · obtain ⟨hicj, hz12⟩ :=
      decomp_unique hN hz.1 hz.2.1 hz.2.2.1 hz.2.2.2 h1
    obtain ⟨hcij, _⟩ :=
      decomp_unique hN hz.2.2.1 hz.2.2.2 hz.1 hz.2.1 h2
    cases t with
    | false =>
      simp at hicj hcij
      exact hij (by omega)
    | true =>
      simp at hicj hcij
      obtain ⟨hm2, _⟩ := wcopy_swap hij hcij hicj.symm
      exact hsl rfl hm2 hz12

theorem supergraph_slots_pairwise (g : MGraph Node) (m : Int) (p : V3)
    (hm : 1 ≤ m)
    (hend : ∀ e ∈ g.edges, e.n1 ∈ g.nodes ∧ e.n2 ∈ g.nodes)
    (hkey : (g.edges.map stripT).Pairwise (fun a b => ¬ slotClash a b))
    (hx2 : ¬(m = 2 ∧ ∃ e ∈ g.edges, e.n1 = e.n2 ∧
        (e.data.delta = p ∨ e.data.delta = vneg p))) :
    ((List.range m.toNat).flatMap
      (fun i => stripCopy g m p (i : Int))).Pairwise
      (fun a b => ¬ slotClash a b) := by
  have hperm : ((((splitEdges p g.edges).2 ++
      (splitEdges p g.edges).1).map stripT)).Perm (g.edges.map stripT) := by
    rw [List.map_append]
    exact (List.perm_append_comm).trans (splitEdges_strip_perm p g.edges)
  have hedge : ((splitEdges p g.edges).2 ++ (splitEdges p g.edges).1).Pairwise
      (fun e f => ¬ slotClash (stripT e) (stripT f)) :=
    List.pairwise_map.mp
      ((hperm.pairwise_iff (fun h hcl => h (slotClash_symm hcl))).mpr hkey)
  have hmem : ∀ e ∈ (splitEdges p g.edges).2 ++ (splitEdges p g.edges).1,
      e.n1 ∈ g.nodes ∧ e.n2 ∈ g.nodes := by
    intro e he
    rcases List.mem_append.mp he with h | h
    · exact hend e (splitEdges_os_sub p g.edges e h)
    · obtain ⟨f, hf, h1, h2, _, _⟩ := splitEdges_cs_origin p g.edges e h
      rw [h1, h2]
      exact hend f hf
  have hedgeIdx : ((splitEdges p g.edges).2 ++
      (splitEdges p g.edges).1).Pairwise
      (fun e f => ¬ slotClash (idxStrip g e) (idxStrip g f)) := by
    refine List.Pairwise.imp_of_mem ?_ hedge
    intro a b ha hb hR hcl
    obtain ⟨hk, hbr⟩ := hcl
    simp only [idxStrip] at hk hbr
    refine hR ⟨hk, ?_⟩
    rcases hbr with ⟨h1, h2⟩ | ⟨h1, h2⟩
    · exact Or.inl ⟨nodeIndex_inj g (hmem a ha).1 (hmem b hb).1 h1,
        nodeIndex_inj g (hmem a ha).2 (hmem b hb).2 h2⟩
    · exact Or.inr ⟨nodeIndex_inj g (hmem a ha).1 (hmem b hb).2 h1,
        nodeIndex_inj g (hmem a ha).2 (hmem b hb).1 h2⟩
  have hVpw : (taggedSlots g p).Pairwise (fun a b => ¬ slotClash a.2 b.2) := by
    rw [taggedSlots_eq]
    exact List.pairwise_map.mpr (pairwise_tag hedgeIdx)
  have hVb : ∀ tz ∈ taggedSlots g p,
      0 ≤ tz.2.1 ∧ tz.2.1 < ((g.nodes.length : Nat) : Int) ∧
      0 ≤ tz.2.2.1 ∧ tz.2.2.1 < ((g.nodes.length : Nat) : Int) := by
    intro tz htz
    rw [taggedSlots_eq] at htz
    obtain ⟨te, hte, rfl⟩ := List.mem_map.mp htz
    have he : te.2 ∈ (splitEdges p g.edges).2 ++ (splitEdges p g.edges).1 := by
      rcases List.mem_append.mp hte with h | h
      · obtain ⟨e, he', rfl⟩ := List.mem_map.mp h
        exact List.mem_append_left _ he'
      · obtain ⟨e, he', rfl⟩ := List.mem_map.mp h
        exact List.mem_append_right _ he'
    have hb := hmem te.2 he
    simp only [idxStrip]
    exact ⟨(nodeIndex_bounds g hb.1).1, (nodeIndex_bounds g hb.1).2,
      (nodeIndex_bounds g hb.2).1, (nodeIndex_bounds g hb.2).2⟩
  have hVt : ∀ tz ∈ taggedSlots g p, tz.1 = true → m = 2 →
      tz.2.1 ≠ tz.2.2.1 := by
    intro tz htz htag hm2
    rw [taggedSlots_eq] at htz
    obtain ⟨te, hte, rfl⟩ := List.mem_map.mp htz
    rcases List.mem_append.mp hte with h | h
    · obtain ⟨e, _, rfl⟩ := List.mem_map.mp h
      exact absurd htag (by simp)
    · obtain ⟨e, he', rfl⟩ := List.mem_map.mp h
      intro heq
      simp only [idxStrip] at heq
      obtain ⟨f, hf, h1, h2, _, hd⟩ := splitEdges_cs_origin p g.edges e he'
      have hmm : e.n1 ∈ g.nodes ∧ e.n2 ∈ g.nodes := by
        rw [h1, h2]
        exact hend f hf
      have hn : e.n1 = e.n2 := nodeIndex_inj g hmm.1 hmm.2 heq
      exact hx2 ⟨hm2, f, hf, by rw [← h1, ← h2, hn], hd⟩
  have hwithin : ∀ i ∈ List.range m.toNat,
      (stripCopy g m p (i : Int)).Pairwise (fun a b => ¬ slotClash a b) := by
    intro i hi
    have hib : 0 ≤ (i : Int) ∧ (i : Int) < m := by
      have := List.mem_range.mp hi
      omega
    unfold stripCopy
    apply List.pairwise_map.mpr
    refine List.Pairwise.imp_of_mem ?_ hVpw
    intro a b ha hb hR
    exact instTuple_no_clash_of_input hib hib (hVb a ha) (hVb b hb) hR
  have hcross : (List.range m.toNat).Pairwise (fun (i j : Nat) =>
      ∀ x ∈ stripCopy g m p (i : Int), ∀ y ∈ stripCopy g m p (j : Int),
        ¬ slotClash x y) := by
    refine List.Pairwise.imp_of_mem ?_ (List.pairwise_lt_range _)
    intro i j hi hj hlt x hx y hy
    have hib : 0 ≤ (i : Int) ∧ (i : Int) < m := by
      have := List.mem_range.mp hi
      omega
    have hjb : 0 ≤ (j : Int) ∧ (j : Int) < m := by
      have := List.mem_range.mp hj
      omega
    unfold stripCopy at hx hy
    obtain ⟨a, ha, rfl⟩ := List.mem_map.mp hx
    obtain ⟨b, hb, rfl⟩ := List.mem_map.mp hy
    by_cases hcl : slotClash a.2 b.2
    · have hsym2 : Symmetric
          (fun (x y : Bool × (Int × Int × Nat)) => ¬ slotClash x.2 y.2) :=
        fun x y h hc => h (slotClash_symm hc)
      have hab : a = b := by
        by_contra hne
        exact (hVpw.forall hsym2) ha hb hne hcl
      subst hab
      exact instTuple_no_clash_same (by omega : (i : Int) ≠ (j : Int))
        (hVb a ha) (hVt a ha)
    · exact instTuple_no_clash_of_input hib hjb (hVb a ha) (hVb b hb) hcl
  exact pairwise_flatMap hcross hwithin

theorem supergraphEdgeList_length (g : MGraph Node) (m : Int) (p : V3)
    (hm : 1 ≤ m)
    (hend : ∀ e ∈ g.edges, e.n1 ∈ g.nodes ∧ e.n2 ∈ g.nodes) :
    (supergraphEdgeList g m p).length = m.toNat * g.edges.length := by
  have h1 : (supergraphEdgeList g m p).length =
      ((supergraphEdgeList g m p).map stripT).length :=
    (List.length_map _ _).symm
  rw [h1, strip_supergraphEdgeList g m p hm hend]
  have hlen : ∀ i : Int, (stripCopy g m p i).length = g.edges.length := by
    intro i
    unfold stripCopy taggedSlots
    rw [List.length_map, List.length_append, List.length_map, List.length_map]
    have := splitEdges_length p g.edges
    omega
  generalize m.toNat = M
  induction M with
  | zero => simp
  | succ k ih =>
    rw [List.range_succ, List.flatMap_append, List.flatMap_singleton,
      List.length_append, ih, hlen]
    ring

theorem exists_endpoint_iff_strip (L : List (MEdge Int)) (x : Int) :
    (∃ e ∈ L, x = e.n1 ∨ x = e.n2) ↔
    (∃ t ∈ L.map stripT, x = t.1 ∨ x = t.2.1) := by
  constructor
  · rintro ⟨e, he, h⟩
    exact ⟨stripT e, List.mem_map_of_mem _ he, h⟩
  · rintro ⟨t, ht, h⟩
    obtain ⟨e, he, rfl⟩ := List.mem_map.mp ht
    exact ⟨e, he, h⟩

theorem supergraph_nodes_mem (g : MGraph Node) (m : Int) (p : V3)
    (hm : 1 ≤ m) (hnd : g.nodes.Nodup)
    (hend : ∀ e ∈ g.edges, e.n1 ∈ g.nodes ∧ e.n2 ∈ g.nodes)
    (hiso : ∀ n ∈ g.nodes, ∃ e ∈ g.edges, e.n1 = n ∨ e.n2 = n) (x : Int) :
    (∃ e ∈ supergraphEdgeList g m p, x = e.n1 ∨ x = e.n2) ↔
      0 ≤ x ∧ x < m * ((g.nodes.length : Nat) : Int) := by
  rw [exists_endpoint_iff_strip, strip_supergraphEdgeList g m p hm hend]
  have hVb : ∀ tz ∈ taggedSlots g p,
      0 ≤ tz.2.1 ∧ tz.2.1 < ((g.nodes.length : Nat) : Int) ∧
      0 ≤ tz.2.2.1 ∧ tz.2.2.1 < ((g.nodes.length : Nat) : Int) := by
    intro tz htz
    rw [taggedSlots_eq] at htz
    obtain ⟨te, hte, rfl⟩ := List.mem_map.mp htz
    have he : te.2 ∈ (splitEdges p g.edges).2 ++ (splitEdges p g.edges).1 := by
      rcases List.mem_append.mp hte with h | h
      · obtain ⟨e, he', rfl⟩ := List.mem_map.mp h
        exact List.mem_append_left _ he'
      · obtain ⟨e, he', rfl⟩ := List.mem_map.mp h
        exact List.mem_append_right _ he'
    have hb : te.2.n1 ∈ g.nodes ∧ te.2.n2 ∈ g.nodes := by
      rcases List.mem_append.mp he with h | h
      · exact hend te.2 (splitEdges_os_sub p g.edges te.2 h)
      · obtain ⟨f, hf, h1, h2, _, _⟩ := splitEdges_cs_origin p g.edges te.2 h
        rw [h1, h2]
        exact hend f hf
    simp only [idxStrip]
    exact ⟨(nodeIndex_bounds g hb.1).1, (nodeIndex_bounds g hb.1).2,
      (nodeIndex_bounds g hb.2).1, (nodeIndex_bounds g hb.2).2⟩
  constructor
  · rintro ⟨t, ht, hx⟩
    obtain ⟨i, hi, hti⟩ := List.mem_flatMap.mp ht
    have hib : 0 ≤ (i : Int) ∧ (i : Int) < m := by
      have := List.mem_range.mp hi
      omega
    unfold stripCopy at hti
    obtain ⟨tz, htz, rfl⟩ := List.mem_map.mp hti
    obtain ⟨hb1, hb2, hb3, hb4⟩ := hVb tz htz
    have hw : 0 ≤ (if tz.1 then wcopy m (i : Int) else (i : Int)) ∧
        (if tz.1 then wcopy m (i : Int) else (i : Int)) < m := by
      split
      · exact wcopy_bounds hib.1 hib.2
      · exact hib
    have hNpos : (0 : Int) < ((g.nodes.length : Nat) : Int) := by omega
    rcases hx with hx | hx
    · simp only [instTuple] at hx
      subst hx
      constructor
      · have := mul_nonneg hib.1 (le_of_lt hNpos)
        omega
      · have h2 : ((i : Int) + 1) * ((g.nodes.length : Nat) : Int) ≤
            m * ((g.nodes.length : Nat) : Int) :=
          mul_le_mul_of_nonneg_right (by omega) (by omega)
        nlinarith
    · simp only [instTuple] at hx
      subst hx
      constructor
      · have := mul_nonneg hw.1 (le_of_lt hNpos)
        omega
      · have h2 : ((if tz.1 then wcopy m (i : Int) else (i : Int)) + 1) *
            ((g.nodes.length : Nat) : Int) ≤
            m * ((g.nodes.length : Nat) : Int) :=
          mul_le_mul_of_nonneg_right (by omega) (by omega)
        nlinarith
  · rintro ⟨hx0, hxm⟩
    set N := ((g.nodes.length : Nat) : Int) with hN
    have hNpos : (0 : Int) < N := by
      by_contra hc
      push_neg at hc
      have : m * N ≤ 0 := mul_nonpos_of_nonneg_of_nonpos (by omega) hc
      omega
    set q := x / N with hq
    set r := x % N with hr
    have hr0 : 0 ≤ r := Int.emod_nonneg x (by omega)
    have hrN : r < N := Int.emod_lt_of_pos x hNpos
    have hxqr : x = q * N + r := by
      have := Int.ediv_add_emod x N
      rw [hq, hr]
      linarith
    have hq0 : 0 ≤ q := Int.ediv_nonneg hx0 (le_of_lt hNpos)
    have hqm : q < m := by
      rw [hq]
      rw [Int.ediv_lt_iff_lt_mul hNpos]
      linarith
    obtain ⟨n, hn, hidx⟩ := nodeIndex_surj g hnd hr0 hrN
    obtain ⟨e, he, hside⟩ := hiso n hn
    have hosmem : ∀ f ∈ (splitEdges p g.edges).2,
        (false, idxStrip g f) ∈ taggedSlots g p := by
      intro f hf
      rw [taggedSlots_eq]
      exact List.mem_map_of_mem _
        (List.mem_append_left _ (List.mem_map_of_mem _ hf))
    have hcsmem : ∀ f ∈ (splitEdges p g.edges).1,
        (true, idxStrip g f) ∈ taggedSlots g p := by
      intro f hf
      rw [taggedSlots_eq]
      exact List.mem_map_of_mem _
        (List.mem_append_right _ (List.mem_map_of_mem _ hf))
    have hcopy_mem : ∀ (c : Int), 0 ≤ c → c < m →
        ∀ tz ∈ taggedSlots g p,
          instTuple N m c tz.1 tz.2 ∈
            (List.range m.toNat).flatMap
              (fun i => stripCopy g m p (i : Int)) := by
      intro c hc0 hcm tz htz
      apply List.mem_flatMap.mpr
      refine ⟨c.toNat, List.mem_range.mpr (by omega), ?_⟩
      have hcast : ((c.toNat : Nat) : Int) = c := by omega
      rw [hcast]
      unfold stripCopy
      rw [← hN]
      exact List.mem_map_of_mem _ htz
    rcases splitEdges_cover p g.edges e he with hos | ⟨e', he', h1, h2⟩
    · rcases hside with hn1 | hn2
      · refine ⟨instTuple N m q false (idxStrip g e),
          hcopy_mem q hq0 hqm _ (hosmem e hos), ?_⟩
        left
        simp only [instTuple, idxStrip]
        rw [hn1, hidx]
        omega
      · refine ⟨instTuple N m q false (idxStrip g e),
          hcopy_mem q hq0 hqm _ (hosmem e hos), ?_⟩
        right
        simp only [instTuple, idxStrip]
        rw [if_neg (by simp), hn2, hidx]
        omega
    · rcases hside with hn1 | hn2
      · refine ⟨instTuple N m q true (idxStrip g e'),
          hcopy_mem q hq0 hqm _ (hcsmem e' he'), ?_⟩
        left
        simp only [instTuple, idxStrip]
        rw [h1, hn1, hidx]
        omega
      · set c : Int := if q = 0 then m - 1 else q - 1 with hc
        have hc0 : 0 ≤ c := by rw [hc]; split <;> omega
        have hcm : c < m := by rw [hc]; split <;> omega
        have hwc : wcopy m c = q := by
          rw [hc]
          unfold wcopy
          by_cases hq0' : q = 0
          · rw [if_pos hq0', if_pos (by omega)]
            omega
          · rw [if_neg hq0', if_neg (by omega)]
            omega
        refine ⟨instTuple N m c true (idxStrip g e'),
          hcopy_mem c hc0 hcm _ (hcsmem e' he'), ?_⟩
        right
        simp only [instTuple, idxStrip, if_true]
        rw [hwc, h2, hn2, hidx]
        omega

/-- C3 (amended): for multiplicity m at least 1 on a well-formed graph (no
duplicate nodes, edge endpoints among the nodes, per-pair-distinct edge
keys) without isolated nodes, and excluding the single degenerate collision
case (m = 2 with a self-loop whose delta is the periodicity vector or its
negation), make_supergraph returns a multigraph with exactly m times the
node count and m times the edge count of the input — not the same edge
count as the input, which the counterexample refutes. -/
theorem c3_make_supergraph_counts :
    ∀ (g : MGraph Node) (m : Int) (p : V3),
      1 ≤ m →
      g.nodes.Nodup →
      (∀ e ∈ g.edges, e.n1 ∈ g.nodes ∧ e.n2 ∈ g.nodes) →
      (∀ n ∈ g.nodes, ∃ e ∈ g.edges, e.n1 = n ∨ e.n2 = n) →
      (g.edges.map stripT).Pairwise (fun a b => ¬ slotClash a b) →
      ¬(m = 2 ∧ ∃ e ∈ g.edges, e.n1 = e.n2 ∧
          (e.data.delta = p ∨ e.data.delta = vneg p)) →
      ∃ sg, make_supergraph g (.int m) [p] = .ok sg ∧
        make_supergraph g (.seq [m]) [p] = make_supergraph g (.int m) [p] ∧
        sg.nodes.length = m.toNat * g.nodes.length ∧
        sg.edges.length = m.toNat * g.edges.length := by
  intro g m p hm hnd hend hiso hkey hx2
  by_cases hE : g.edges.isEmpty
  · -- no edges: no isolated nodes forces an empty graph on both sides
    have hed : g.edges = [] := List.isEmpty_iff.mp hE
    have hnode : g.nodes = [] := by
      rw [List.eq_nil_iff_forall_not_mem]
      intro n hn
      obtain ⟨e, he, _⟩ := hiso n hn
      rw [hed] at he
      exact absurd he (by simp)
    have hflat : ∀ (l : List Nat),
        (l.flatMap (fun _ => ([] : List (MEdge Int)))) = [] := by
      intro l
      induction l with
      | nil => rfl
      | cons a rest ih => simp [ih]
    have hlist : supergraphEdgeList g m vzero = [] := by
      unfold supergraphEdgeList
      rw [hed]
      simp only [splitEdges, List.map_nil, List.append_nil, List.nil_append]
      exact hflat (List.range (m - 1).toNat)
    refine ⟨buildFromEdges (supergraphEdgeList g m vzero), ?_, ?_, ?_, ?_⟩
    · simp [make_supergraph, hE]
    · simp [make_supergraph]
    · rw [hlist, hnode]
      simp [buildFromEdges, emptyGraph]
    · rw [hlist, hed]
      simp [buildFromEdges, emptyGraph]
  · have hmk : make_supergraph g (.int m) [p] =
        .ok (buildFromEdges (supergraphEdgeList g m p)) := by
      simp [make_supergraph, hE]
    have hpwL : (supergraphEdgeList g m p).Pairwise
        (fun a b => ¬ slotClash (stripT a) (stripT b)) := by
      have h := supergraph_slots_pairwise g m p hm hend hkey hx2
      rw [← strip_supergraphEdgeList g m p hm hend] at h
      exact List.pairwise_map.mp h
    have hEcnt : (buildFromEdges (supergraphEdgeList g m p)).edges.length =
        m.toNat * g.edges.length := by
      unfold buildFromEdges
      rw [foldl_addEdge_length _ emptyGraph (by intro a _ e he; simp [emptyGraph] at he) hpwL]
      rw [supergraphEdgeList_length g m p hm hend]
      simp [emptyGraph]
    have hNnd : (buildFromEdges (supergraphEdgeList g m p)).nodes.Nodup := by
      unfold buildFromEdges
      exact foldl_addEdge_nodes_nodup _ emptyGraph (by simp [emptyGraph])
    have hNmem : ∀ x : Int,
        x ∈ (buildFromEdges (supergraphEdgeList g m p)).nodes ↔
          0 ≤ x ∧ x < m * ((g.nodes.length : Nat) : Int) := by
      intro x
      unfold buildFromEdges
      rw [foldl_addEdge_nodes_mem]
      simp only [emptyGraph, List.not_mem_nil, false_or]
      exact supergraph_nodes_mem g m p hm hnd hend hiso x
    have hRnd : ((List.range (m.toNat * g.nodes.length)).map (Nat.cast : Nat → Int)).Nodup :=
      (List.nodup_range _).map Nat.cast_injective
    have hRmem : ∀ x : Int,
        x ∈ (List.range (m.toNat * g.nodes.length)).map (Nat.cast : Nat → Int) ↔
          0 ≤ x ∧ x < m * ((g.nodes.length : Nat) : Int) := by
      intro x
      rw [List.mem_map]
      constructor
      · rintro ⟨k, hk, rfl⟩
        have hk' := List.mem_range.mp hk
        constructor
        · omega
        · have : ((m.toNat * g.nodes.length : Nat) : Int) =
              m * ((g.nodes.length : Nat) : Int) := by
            push_cast
            rw [Int.toNat_of_nonneg (by omega)]
          omega
      · rintro ⟨h0, hxm⟩
        refine ⟨x.toNat, List.mem_range.mpr ?_, by omega⟩
        have : ((m.toNat * g.nodes.length : Nat) : Int) =
            m * ((g.nodes.length : Nat) : Int) := by
          push_cast
          rw [Int.toNat_of_nonneg (by omega)]
        omega
    have hfin : (buildFromEdges (supergraphEdgeList g m p)).nodes.toFinset =
        ((List.range (m.toNat * g.nodes.length)).map (Nat.cast : Nat → Int)).toFinset := by
      apply Finset.ext
      intro x
      rw [List.mem_toFinset, List.mem_toFinset, hNmem, hRmem]
    have hNcnt : (buildFromEdges (supergraphEdgeList g m p)).nodes.length =
        m.toNat * g.nodes.length := by
      have h1 := List.toFinset_card_of_nodup hNnd
      have h2 := List.toFinset_card_of_nodup hRnd
      rw [hfin, h2] at h1
      rw [← h1, List.length_map, List.length_range]
    exact ⟨buildFromEdges (supergraphEdgeList g m p), hmk, by
      simp [make_supergraph], hNcnt, hEcnt⟩

/-- C3 witness for the amended count theorem: gLadder with multiplicity 2
satisfies every hypothesis and the supergraph has 4 = 2 x 2 nodes and
4 = 2 x 2 edges. -/
theorem c3_make_supergraph_counts_witness :
    ∃ sg, make_supergraph gLadder (.int 2) [(1, 0, 0)] = .ok sg ∧
      make_supergraph gLadder (.seq [2]) [(1, 0, 0)] =
        make_supergraph gLadder (.int 2) [(1, 0, 0)] ∧
      sg.nodes.length = 2 * gLadder.nodes.length ∧
      sg.edges.length = 2 * gLadder.edges.length :=
  c3_make_supergraph_counts gLadder 2 (1, 0, 0) (by decide) (by decide)
    (by decide) (by decide) (by decide) (by decide)

/-! Lemmas for C4: structure of the all-simple-paths engine. -/

theorem indepStep_length {acc : List V3} {v : V3} (h : indepStep acc v = true) :
    acc.length ≤ 2 := by
  match acc with
  | [] => simp
  | [_] => simp
  | [_, _] => simp
  | _ :: _ :: _ :: _ => exact absurd h (by simp [indepStep])

theorem foldl_indep_length (l : List V3) :
    ∀ acc : List V3, acc.length ≤ 3 →
      (List.foldl (fun acc v => if indepStep acc v then acc ++ [v] else acc)
        acc l).length ≤ 3 := by
  induction l with
  | nil => intro acc h; simpa
  | cons v rest ih =>
    intro acc h
    simp only [List.foldl_cons]
    by_cases hs : indepStep acc v = true
    · rw [if_pos hs]
      apply ih
      have := indepStep_length hs
      simp only [List.length_append, List.length_singleton]
      omega
    · rw [if_neg hs]; exact ih acc h

theorem length_get_linearly_independent_vectors (l : List V3) :
    (get_linearly_independent_vectors l).length ≤ 3 :=
  foldl_indep_length l [] (by simp)

theorem aspGo_length_le (g : MGraph Node) :
    ∀ (raw : List (List Node)) (seen : List (List Int)) (cur : List V3),
      cur.length ≤ 3 → (aspGo g raw seen cur).length ≤ 3 := by
  intro raw
  induction raw with
  | nil => intro seen cur h; simpa [aspGo]
  | cons p rest ih =>
    intro seen cur h
    simp only [aspGo]
    by_cases hi : (p.map Node.isite) ∈ seen
    · rw [if_pos hi]; exact ih seen cur h
    · rw [if_neg hi]
      by_cases h3 :
          (get_linearly_independent_vectors (cur ++ pathDeltas g p)).length = 3
      · rw [if_pos h3]; omega
      · rw [if_neg h3]
        exact ih _ _ (length_get_linearly_independent_vectors _)

theorem aspGo_fresh (g : MGraph Node) :
    ∀ (raw : List (List Node)) (seen : List (List Int)) (cur : List V3),
      (∃ p ∈ raw, p.map Node.isite ∉ seen) →
      (aspGo g raw seen cur).length ≤ 3 := by
  intro raw
  induction raw with
  | nil => intro seen cur h; exact absurd h (by simp)
  | cons p rest ih =>
    intro seen cur h
    simp only [aspGo]
    by_cases hi : (p.map Node.isite) ∈ seen
    · rw [if_pos hi]
      obtain ⟨q, hq, hqs⟩ := h
      rcases List.mem_cons.mp hq with rfl | hq'
      · exact absurd hi hqs
      · exact ih seen cur ⟨q, hq', hqs⟩
    · rw [if_neg hi]
      by_cases h3 :
          (get_linearly_independent_vectors (cur ++ pathDeltas g p)).length = 3
      · rw [if_pos h3]; omega
      · rw [if_neg h3]
        exact aspGo_length_le g rest _ _
          (length_get_linearly_independent_vectors _)

theorem neighbors_fold_keep {α : Type} [DecidableEq α] (u : α) :
    ∀ (l : List (MEdge α)) (acc : List α) (x : α), x ∈ acc →
      x ∈ l.foldl
        (fun acc e =>
          if e.n1 = u then insertNew acc e.n2
          else if e.n2 = u then insertNew acc e.n1
          else acc) acc := by
  intro l
  induction l with
  | nil => intro acc x hx; simpa
  | cons e rest ih =>
    intro acc x hx
    simp only [List.foldl_cons]
    apply ih
    by_cases h1 : e.n1 = u
    · rw [if_pos h1]; exact (mem_insertNew _ _ _).mpr (Or.inl hx)
    · rw [if_neg h1]
      by_cases h2 : e.n2 = u
      · rw [if_pos h2]; exact (mem_insertNew _ _ _).mpr (Or.inl hx)
      · rw [if_neg h2]; exact hx

theorem mem_neighbors_of_self_edge (g : MGraph Node) (t : Node)
    (e : MEdge Node) (he : e ∈ g.edges) (h1 : e.n1 = t) (h2 : e.n2 = t) :
    t ∈ neighbors g t := by
  unfold neighbors
  have aux : ∀ (l : List (MEdge Node)) (acc : List Node), e ∈ l →
      t ∈ l.foldl
        (fun acc e =>
          if e.n1 = t then insertNew acc e.n2
          else if e.n2 = t then insertNew acc e.n1
          else acc) acc := by
    intro l
    induction l with
    | nil => intro acc h; exact absurd h (by simp)
    | cons f rest ih =>
      intro acc hmem
      simp only [List.foldl_cons]
      rcases List.mem_cons.mp hmem with rfl | hmem'
      · apply neighbors_fold_keep
        rw [if_pos h1, h2]
        exact (mem_insertNew _ _ _).mpr (Or.inr rfl)
      · exact ih _ hmem'
  exact aux g.edges [] he

theorem selfloop_path_mem (g : MGraph Node) (t : Node)
    (he : ¬ (edgesBetween g t t).isEmpty) (hn : g.nodes ≠ []) :
    [t, t] ∈ all_simple_paths g t := by
  have ht : t ∈ neighbors g t := by
    cases hE : edgesBetween g t t with
    | nil => rw [hE] at he; exact absurd rfl he
    | cons e es =>
      have hmem : e ∈ edgesBetween g t t := by rw [hE]; exact List.mem_cons_self _ _
      have hf := List.mem_filter.mp hmem
      have hp := of_decide_eq_true hf.2
      rcases hp with ⟨ha, hb⟩ | ⟨ha, hb⟩
      · exact mem_neighbors_of_self_edge g t e hf.1 ha hb
      · exact mem_neighbors_of_self_edge g t e hf.1 ha hb
  unfold all_simple_paths
  obtain ⟨k, hk⟩ : ∃ k, g.nodes.length = k + 1 := by
    cases hng : g.nodes with
    | nil => exact absurd hng hn
    | cons a l => exact ⟨l.length, by simp⟩
  rw [hk]
  simp only [spAux]
  apply List.mem_flatMap.mpr
  exact ⟨t, ht, by simp⟩

theorem nodeCell_length_le (g : MGraph Node) (t : Node) (hn : g.nodes ≠ []) :
    (nodeCellImgVectors g t).length ≤ 3 := by
  unfold nodeCellImgVectors
  by_cases hE : (edgesBetween g t t).isEmpty
  · rw [if_pos hE]
    exact aspGo_length_le g _ [] [] (by simp)
  · rw [if_neg hE]
    apply aspGo_fresh
    exact ⟨[t, t], selfloop_path_mem g t hE hn, by simp⟩

theorem mem_aspCollect (g : MGraph Node) :
    ∀ (l : List Node) (s : List V3), s ∈ aspCollect g l →
      ∃ t ∈ l, s = nodeCellImgVectors g t := by
  intro l
  induction l with
  | nil => intro s hs; exact absurd hs (by simp [aspCollect])
  | cons t ts ih =>
    intro s hs
    simp only [aspCollect] at hs
    by_cases ht3 : (nodeCellImgVectors g t).length = 3
    · rw [if_pos ht3] at hs
      have : s = nodeCellImgVectors g t := by simpa using hs
      exact ⟨t, by simp, this⟩
    · rw [if_neg ht3] at hs
      rcases List.mem_cons.mp hs with rfl | hs'
      · exact ⟨t, by simp, rfl⟩
      · obtain ⟨u, hu, hsu⟩ := ih s hs'
        exact ⟨u, by simp [hu], hsu⟩

theorem aspTested_length_le (g : MGraph Node) :
    ∀ s ∈ aspTested g, s.length ≤ 3 := by
  intro s hs
  obtain ⟨t, ht, rfl⟩ := mem_aspCollect g g.nodes s hs
  exact nodeCell_length_le g t (List.ne_nil_of_mem ht)

theorem aspCollect_initial (g : MGraph Node) :
    ∀ l : List Node,
      ∃ rest, aspCollect g l ++ rest = l.map (nodeCellImgVectors g) := by
  intro l
  induction l with
  | nil => exact ⟨[], rfl⟩
  | cons t ts ih =>
    simp only [aspCollect, List.map_cons]
    by_cases h3 : (nodeCellImgVectors g t).length = 3
    · rw [if_pos h3]
      exact ⟨ts.map (nodeCellImgVectors g), by simp⟩
    · rw [if_neg h3]
      obtain ⟨r, hr⟩ := ih
      exact ⟨r, by simp [hr]⟩

theorem aspCollect_three (g : MGraph Node) :
    ∀ (l : List Node) (s : List V3), s ∈ aspCollect g l → s.length = 3 →
      ∃ pre, aspCollect g l = pre ++ [s] ∧ ∀ x ∈ pre, x.length ≠ 3 := by
  intro l
  induction l with
  | nil => intro s hs _; exact absurd hs (by simp [aspCollect])
  | cons t ts ih =>
    intro s hs h3
    simp only [aspCollect] at hs ⊢
    by_cases ht3 : (nodeCellImgVectors g t).length = 3
    · rw [if_pos ht3] at hs ⊢
      have heq : s = nodeCellImgVectors g t := by simpa using hs
      exact ⟨[], by simp [heq], by simp⟩
    · rw [if_neg ht3] at hs ⊢
      rcases List.mem_cons.mp hs with rfl | hs'
      · exact absurd h3 ht3
      · obtain ⟨pre, hp, hne⟩ := ih s hs' h3
        refine ⟨nodeCellImgVectors g t :: pre, by simp [hp], ?_⟩
        intro x hx
        rcases List.mem_cons.mp hx with rfl | hx'
        · exact ht3
        · exact hne x hx'

theorem aspSelect_reaches {s : List V3} (h3 : s.length = 3) :
    ∀ (pre : List (List V3)) (best : List V3),
      (∀ x ∈ pre, x.length ≤ 3 ∧ x.length ≠ 3) → best.length < 3 →
      aspSelect (pre ++ [s]) best = s := by
  intro pre
  induction pre with
  | nil =>
    intro best _ hb
    simp only [List.nil_append, aspSelect]
    rw [if_pos (by omega : best.length < s.length)]
    rw [if_pos h3]
  | cons x pre' ih =>
    intro best hpre hb
    have hx := hpre x (by simp)
    have hx3 : x.length < 3 := by omega
    simp only [List.cons_append, aspSelect]
    by_cases hbx : best.length < x.length
    · rw [if_pos hbx, if_neg (by omega : ¬ x.length = 3)]
      exact ih x (fun y hy => hpre y (by simp [hy])) hx3
    · rw [if_neg hbx, if_neg (by omega : ¬ best.length = 3)]
      exact ih best (fun y hy => hpre y (by simp [hy])) hb

theorem aspSelect_ge :
    ∀ (l : List (List V3)) (best : List V3), (∀ x ∈ l, x.length ≤ 3) →
      best.length ≤ (aspSelect l best).length ∧
      ∀ x ∈ l, x.length ≤ (aspSelect l best).length := by
  intro l
  induction l with
  | nil => intro best _; exact ⟨le_refl _, by simp⟩
  | cons s rest ih =>
    intro best h
    simp only [aspSelect]
    by_cases hbs : best.length < s.length
    · simp only [if_pos hbs]
      by_cases h3 : s.length = 3
      · rw [if_pos h3]
        refine ⟨by omega, ?_⟩
        intro x hx
        rcases List.mem_cons.mp hx with rfl | hx'
        · exact le_refl _
        · have := h x (by simp [hx'])
          omega
      · rw [if_neg h3]
        obtain ⟨h1, h2⟩ := ih s (fun x hx => h x (by simp [hx]))
        refine ⟨by omega, ?_⟩
        intro x hx
        rcases List.mem_cons.mp hx with rfl | hx'
        · exact h1
        · exact h2 x hx'
    · simp only [if_neg hbs]
      by_cases h3 : best.length = 3
      · rw [if_pos h3]
        refine ⟨le_refl _, ?_⟩
        intro x hx
        rcases List.mem_cons.mp hx with rfl | hx'
        · omega
        · have := h x (by simp [hx'])
          omega
      · rw [if_neg h3]
        obtain ⟨h1, h2⟩ := ih best (fun x hx => h x (by simp [hx]))
        refine ⟨h1, ?_⟩
        intro x hx
        rcases List.mem_cons.mp hx with rfl | hx'
        · omega
        · exact h2 x hx'

theorem aspSelect_mem :
    ∀ (l : List (List V3)) (best : List V3),
      aspSelect l best ∈ l ∨ aspSelect l best = best := by
  intro l
  induction l with
  | nil => intro best; right; rfl
  | cons s rest ih =>
    intro best
    simp only [aspSelect]
    by_cases hbs : best.length < s.length
    · simp only [if_pos hbs]
      by_cases h3 : s.length = 3
      · rw [if_pos h3]; left; simp
      · rw [if_neg h3]
        rcases ih s with h | h
        · left; simp [h]
        · left; rw [h]; simp
    · simp only [if_neg hbs]
      by_cases h3 : best.length = 3
      · rw [if_pos h3]; right; rfl
      · rw [if_neg h3]
        rcases ih best with h | h
        · left; simp [h]
        · right; exact h

theorem aspCollect_no3 (g : MGraph Node) :
    ∀ l : List Node, (∀ s ∈ aspCollect g l, s.length ≠ 3) →
      aspCollect g l = l.map (nodeCellImgVectors g) := by
  intro l
  induction l with
  | nil => intro _; rfl
  | cons t ts ih =>
    intro h
    simp only [aspCollect, List.map_cons]
    by_cases ht3 : (nodeCellImgVectors g t).length = 3
    · exact absurd ht3 (h _ (by simp [aspCollect, if_pos ht3]))
    · rw [if_neg ht3]
      congr 1
      apply ih
      intro s hs
      exact h s (by simp [aspCollect, if_neg ht3, hs])

/-- C4: the all-simple-paths engine tests the nodes in order (the tested
sets form a prefix of the per-node results); when a tested node's set
reduces to 3 independent vectors it is the last node tested and its set is
the final result; when no tested set reaches 3, every node is tested; and
the final result always realizes the largest independent count among the
tested sets, being itself one of them (or empty when there is no node). -/
theorem c4_asp_early_exit_and_max (g : MGraph Node) :
    (∃ rest, aspTested g ++ rest = g.nodes.map (nodeCellImgVectors g)) ∧
    (∀ s, s ∈ aspTested g → s.length = 3 →
      (aspTested g).getLast? = some s ∧
      compute_periodicity_all_simple_paths_algorithm g = s) ∧
    ((∀ s ∈ aspTested g, s.length ≠ 3) →
      aspTested g = g.nodes.map (nodeCellImgVectors g)) ∧
    (∀ s ∈ aspTested g,
      s.length ≤ (compute_periodicity_all_simple_paths_algorithm g).length) ∧
    (aspTested g = [] ∨
      compute_periodicity_all_simple_paths_algorithm g ∈ aspTested g) := by
  have hb := aspTested_length_le g
  refine ⟨aspCollect_initial g g.nodes, ?_, aspCollect_no3 g g.nodes, ?_, ?_⟩
  · intro s hs h3
    obtain ⟨pre, hp, hne⟩ := aspCollect_three g g.nodes s hs h3
    have htg : aspTested g = pre ++ [s] := hp
    constructor
    · rw [htg]
      exact List.getLast?_concat _
    · show aspSelect (aspTested g) [] = s
      rw [htg]
      apply aspSelect_reaches h3 pre []
      · intro x hx
        have hx' : x ∈ aspTested g := by rw [htg]; simp [hx]
        exact ⟨hb x hx', hne x hx⟩
      · simp
  · intro s hs
    exact (aspSelect_ge (aspTested g) [] hb).2 s hs
  · rcases aspSelect_mem (aspTested g) [] with h | h
    · right; exact h
    · by_cases ht : aspTested g = []
      · left; exact ht
      · right
        have hres : compute_periodicity_all_simple_paths_algorithm g = [] := h
        cases hT : aspTested g with
        | nil => exact absurd hT ht
        | cons x xs =>
          have hx : x ∈ aspTested g := by rw [hT]; simp
          have hle := (aspSelect_ge (aspTested g) [] hb).2 x hx
          rw [show aspSelect (aspTested g) [] =
              compute_periodicity_all_simple_paths_algorithm g from rfl,
            hres] at hle
          have : x = [] := List.eq_nil_of_length_eq_zero (by simpa using hle)
          rw [hres, ← this]
          exact List.mem_cons_self _ _

/-- C4 witness: on gTripleLoop the first node already yields 3 independent
vectors, it is the last (and only) node tested, and its set is the final
periodicity-vector set. -/
theorem c4_asp_early_exit_and_max_witness :
    (aspTested gTripleLoop).getLast? =
      some [(1, 0, 0), (0, 1, 0), (0, 0, 1)] ∧
    compute_periodicity_all_simple_paths_algorithm gTripleLoop =
      [(1, 0, 0), (0, 1, 0), (0, 0, 1)] :=
  (c4_asp_early_exit_and_max gTripleLoop).2.1
    [(1, 0, 0), (0, 1, 0), (0, 0, 1)] (by decide) (by decide)

/-- C10: elastic_centered_graph ignores its start_node argument — the source
overwrites it with the first node of the graph's node order before use — so
any call is identical to the call with start_node=None. -/
theorem c10_start_node_ignored :
    ∀ (cc : CState) (start_node : Option Node),
      elastic_centered_graph cc start_node =
        elastic_centered_graph cc none := by
  intro cc start_node
  rfl

end ConnComp
